import Mathlib

set_option maxRecDepth 8000

/-!
Verification development for the TTS_CLIPBOARD_MP3 application (main.py).

Python strings are modelled as `List Char`; Python machine integers are
modelled as `Int`/`Nat`.  The text-processing helpers (`smart_split_text`,
`sanitize_filename`, `pick_first_nonempty_line`) are translated directly
from the source.  Two remarks on the translation:

* Python `str.strip()` / the regex class `\s` match the ASCII whitespace
  characters space, tab, newline, carriage return, vertical tab and form
  feed; `pySpace` models that set.
* The source computes the break-zone thresholds with floating point,
  `int(max_chars * 0.60)` and `int(max_chars * 0.55)`.  For every natural
  number `m` in the relevant range the IEEE-754 double computation
  truncates to exactly `m * 60 / 100` (resp. `m * 55 / 100`): the nearest
  doubles to 0.60 and 0.55 carry a relative error below 2 ^ (-53), so the
  rounded product either equals the exact rational value (when it is an
  integer the perturbation is under half an ulp, or for 0.55 rounds up by
  less than one which truncation removes) or lies strictly inside the same
  unit interval.  The thresholds are therefore embedded as the natural
  number divisions `m * 60 / 100` and `m * 55 / 100`.
-/

/-- ASCII whitespace as matched by Python str.strip and the regex class. -/
def pySpace (c : Char) : Bool :=
  c = ' ' || c = '\t' || c = '\n' || c = '\r' || c = '\x0b' || c = '\x0c'

/-- Remove trailing characters satisfying p (structural version of a
right strip, so that everything evaluates by rfl). -/
def rstripP (p : Char → Bool) : List Char → List Char
  | [] => []
  | c :: t =>
    match rstripP p t with
    | [] => if p c then [] else [c]
    | r => c :: r

/-- Python str.strip(): drop leading and trailing ASCII whitespace. -/
def pyStrip (s : List Char) : List Char :=
  rstripP pySpace (s.dropWhile pySpace)

/-- The normalization re.sub of a CRLF to a LF done at the top of
smart_split_text, replacing non-overlapping occurrences left to right. -/
def normalizeCRLF : List Char → List Char
  | [] => []
  | '\r' :: '\n' :: rest => '\n' :: normalizeCRLF rest
  | c :: rest => c :: normalizeCRLF rest

/-- The sentence_breaks set of smart_split_text. -/
def sentenceBreak (c : Char) : Bool :=
  c = '.' || c = '!' || c = '?' || c = ';' || c = ':'

/-- Index of the last character of the list satisfying p; models the
Python str.rfind calls (rfind returns -1 when absent, modelled as none;
the source compares the -1 against a non-negative threshold, which
always fails, exactly as the none branch does). -/
def rfindIdx (p : Char → Bool) : List Char → Option Nat
  | [] => none
  | c :: t =>
    match rfindIdx p t with
    | some j => some (j + 1)
    | none => if p c then some 0 else none

/-- The backward scan for a sentence terminator:
for k in range(len(window) - 1, lo, -1) with lo = int(max_chars * 0.55).
The scan visits k = hi, hi-1, ..., lo+1 and stops at the first (largest)
index holding a sentence break; the lower bound lo itself is excluded,
exactly as Python range excludes its stop value. -/
def scanBack (w : List Char) (lo : Nat) : Nat → Option Nat
  | 0 => none
  | k + 1 =>
    if k + 1 ≤ lo then none
    else if sentenceBreak (w.getD (k + 1) ' ') then some (k + 1)
    else scanBack w lo k

/-- Step 2 of the segmenter: nl = window.rfind of a newline, taken when
nl is at or beyond int(max_chars * 0.60). -/
def nlCut (w : List Char) (mc : Nat) : Option Nat :=
  match rfindIdx (fun c => c = '\n') w with
  | some nl => if mc * 60 / 100 ≤ nl then some (nl + 1) else none
  | none => none

/-- Step 3 of the segmenter: the backward scan for a sentence
terminator strictly beyond int(max_chars * 0.55). -/
def termCut (w : List Char) (mc : Nat) : Option Nat :=
  match scanBack w (mc * 55 / 100) (w.length - 1) with
  | some k => some (k + 1)
  | none => none

/-- Step 4 of the segmenter: sp = window.rfind of a space, taken when
sp is at or beyond int(max_chars * 0.55). -/
def spaceCut (w : List Char) (mc : Nat) : Option Nat :=
  match rfindIdx (fun c => c = ' ') w with
  | some sp => if mc * 55 / 100 ≤ sp then some (sp + 1) else none
  | none => none

/-- Steps 2-4 of the segmenter in priority order: the chosen cut, none
when every break rule fails (the cut == -1 sentinel of the source). -/
def chooseBreak (w : List Char) (mc : Nat) : Option Nat :=
  match nlCut w mc with
  | some c => some c
  | none =>
    match termCut w mc with
    | some c => some c
    | none => spaceCut w mc

/-- The final cut of one loop iteration: a chosen break, else the hard
cut at the full window length. -/
def findCut (w : List Char) (mc : Nat) : Nat :=
  (chooseBreak w mc).getD w.length

/-- One raw piece s[i : i + cut] per loop iteration of smart_split_text,
before the per-piece strip.  The while loop is embedded with explicit
fuel; fuel s.length + 1 is enough because every iteration consumes at
least one character (findCut is positive on a non-empty window). -/
def splitGo : Nat → Nat → List Char → List (List Char)
  | 0, _, _ => []
  | fuel + 1, mc, s =>
    if s = [] then []
    else if s.length ≤ mc then [s]
    else
      let cut := findCut (s.take mc) mc
      s.take cut :: splitGo fuel mc (s.drop cut)

/-- All raw pieces cut from s under the (already clamped) bound mc. -/
def splitPieces (mc : Nat) (s : List Char) : List (List Char) :=
  splitGo (s.length + 1) mc s

/-- Per-piece treatment in the loop body: chunk = piece.strip(), dropped
when empty. -/
def chunkOf (piece : List Char) : Option (List Char) :=
  let c := pyStrip piece
  if c = [] then none else some c

/-- The clamp max_chars = max(300, int(max_chars)) of the source. -/
def clampChunk (x : Int) : Nat :=
  (max 300 x).toNat

/-- smart_split_text(text, max_chars) from main.py. -/
def smart_split_text (text : List Char) (maxChars : Int) : List (List Char) :=
  let s := pyStrip (normalizeCRLF text)
  if s = [] then []
  else (splitPieces (clampChunk maxChars) s).filterMap chunkOf

/-- One of the valid break points of the segmenter at index k of the
window: a newline at or after 60 percent of the bound, a sentence
terminator strictly after 55 percent of it (the backward scan of the
source excludes its range stop), or a space at or after 55 percent. -/
def breakPredAt (w : List Char) (mc k : Nat) : Bool :=
  (decide (w.getD k ' ' = '\n') && decide (mc * 60 / 100 ≤ k))
  || (sentenceBreak (w.getD k ' ') && decide (mc * 55 / 100 < k))
  || (decide (w.getD k ' ' = ' ') && decide (mc * 55 / 100 ≤ k))

/-- Some valid break point exists somewhere in the window. -/
def hasValidBreak (w : List Char) (mc : Nat) : Bool :=
  (List.range w.length).any (breakPredAt w mc)

/-- Characters replaced by an underscore in sanitize_filename
(the regex class of backslash / * ? : double-quote < > |). -/
def forbiddenChar (c : Char) : Bool :=
  c = '\\' || c = '/' || c = '*' || c = '?' || c = ':' || c = '"' || c = '<' || c = '>' || c = '|'

/-- re.sub of the forbidden class to an underscore. -/
def replaceForbidden (s : List Char) : List Char :=
  s.map (fun c => if forbiddenChar c then '_' else c)

/-- re.sub of one-or-more whitespace to a single space: every maximal
whitespace run collapses to one space.  The flag records whether the
previous character was part of a whitespace run. -/
def collapseWsGo : Bool → List Char → List Char
  | _, [] => []
  | prevWs, c :: rest =>
    if pySpace c then
      if prevWs then collapseWsGo true rest else ' ' :: collapseWsGo true rest
    else c :: collapseWsGo false rest

/-- Collapse whitespace runs, as in sanitize_filename. -/
def collapseWs (s : List Char) : List Char := collapseWsGo false s

/-- The strip set of name.strip(" .") in sanitize_filename. -/
def spaceDot (c : Char) : Bool := c = ' ' || c = '.'

/-- name.strip(" ."): drop leading and trailing spaces and dots. -/
def stripSpaceDot (s : List Char) : List Char :=
  rstripP spaceDot (s.dropWhile spaceDot)

/-- The default name used when sanitization empties the string. -/
def audioStr : List Char := ['a', 'u', 'd', 'i', 'o']

/-- sanitize_filename(name, max_len) from main.py.  The source declares
max_len with default 120; the default is written out at call sites. -/
def sanitize_filename (name : List Char) (maxLen : Nat) : List Char :=
  let n1 := pyStrip name
  let n2 := replaceForbidden n1
  let n3 := collapseWs n2
  let n4 := stripSpaceDot n3
  let n5 := if n4 = [] then audioStr else n4
  n5.take maxLen

/-- Line-boundary characters of Python str.splitlines. -/
def lineBreakChar (c : Char) : Bool :=
  c = '\n' || c = '\r' || c = '\x0b' || c = '\x0c'
  || c = '\x1c' || c = '\x1d' || c = '\x1e' || c = '\x85'
  || c = '\u2028' || c = '\u2029'

/-- Python str.splitlines: a CRLF pair counts as one boundary, a final
unterminated segment is kept, the empty string yields no lines. -/
def splitlinesGo (acc : List Char) : List Char → List (List Char)
  | [] => if acc = [] then [] else [acc.reverse]
  | '\r' :: '\n' :: rest => acc.reverse :: splitlinesGo [] rest
  | c :: rest =>
    if lineBreakChar c then acc.reverse :: splitlinesGo [] rest
    else splitlinesGo (c :: acc) rest

/-- text.splitlines() over the char-list model. -/
def pySplitlines (s : List Char) : List (List Char) := splitlinesGo [] s

/-- A linewise fold for pick_first_nonempty_line. -/
def pickLineGo : List (List Char) → List Char
  | [] => audioStr
  | ln :: rest => if pyStrip ln = [] then pickLineGo rest else pyStrip ln

/-- pick_first_nonempty_line(text) from main.py: the stripped first
non-blank line, or the default name. -/
def pick_first_nonempty_line (text : List Char) : List Char :=
  pickLineGo (pySplitlines text)

/-- The str.join with a newline separator used by _get_text_to_speak. -/
def joinWithNewline : List (List Char) → List Char
  | [] => []
  | [l] => l
  | l :: rest => l ++ '\n' :: joinWithNewline rest

/-- ASCII lowering of one character, for Python str.lower on the
backend selector strings appearing in the configuration. -/
def asciiLower (c : Char) : Char :=
  if 'A' ≤ c ∧ c ≤ 'Z' then Char.ofNat (c.toNat + 32) else c

/-- str.lower over the char-list model. -/
def pyLower (s : List Char) : List Char := s.map asciiLower

/-- The Python "x or default" idiom on strings: the default replaces
the empty string. -/
def orDefault (s d : List Char) : List Char := if s = [] then d else s

/-- The string "edge". -/
def edgeStr : List Char := ['e', 'd', 'g', 'e']

/-- The string "gtts". -/
def gttsStr : List Char := ['g', 't', 't', 's']

/-- The default Edge voice string of AppConfig. -/
def defaultVoiceStr : List Char :=
  ['p', 't', '-', 'B', 'R', '-', 'F', 'r', 'a', 'n', 'c', 'i', 's', 'c', 'a',
   'N', 'e', 'u', 'r', 'a', 'l']

/-- The default rate string of AppConfig. -/
def defaultRateStr : List Char := ['+', '0', '%']

/-- The default pitch string of AppConfig. -/
def defaultPitchStr : List Char := ['+', '0', 'H', 'z']

/-- The AppConfig dataclass of main.py (the applied configuration). -/
structure AppConfig where
  exclude_first_line : Bool
  output_dir : List Char
  mp3_backend : List Char
  mp3_voice : List Char
  mp3_rate : List Char
  mp3_pitch : List Char
  gt_tld_label : List Char
  gt_speed : List Char
  read_voice_name : List Char
  read_rate : Int
  chunk_max_chars : Int
deriving DecidableEq

/-- The _current_job tag of the App. -/
inductive JobKind
  | idle
  | read
  | gen
deriving DecidableEq

/-- The controller-relevant mutable state of the App object:
_is_busy, the pause gate (_pause_event.is_set()), the cancellation flag
(_stop_event.is_set()), _current_job, _restart_after_stop and the
applied configuration self.cfg. -/
structure CtrlState where
  isBusy : Bool
  pauseOpen : Bool
  stopSet : Bool
  currentJob : JobKind
  restartAfterStop : Bool
  cfg : AppConfig
deriving DecidableEq

/-- A pristine controller state around an applied configuration: the
state at startup and after every terminal-state cleanup. -/
def idleState (cfg : AppConfig) : CtrlState :=
  { isBusy := false, pauseOpen := true, stopSet := false,
    currentJob := JobKind.idle, restartAfterStop := false, cfg := cfg }

/-- pause_job from main.py: a no-op when idle, otherwise it toggles the
pause gate. -/
def pause_job (st : CtrlState) : CtrlState :=
  if st.isBusy = false then st
  else if st.pauseOpen then { st with pauseOpen := false }
  else { st with pauseOpen := true }

/-- stop_job from main.py: a no-op when idle, otherwise it requests an
engine restart, sets the cancellation flag and releases the pause gate
(the direct engine stop call of the read branch is an engine-side
effect outside this state model). -/
def stop_job (st : CtrlState) : CtrlState :=
  if st.isBusy = false then st
  else { st with restartAfterStop := true, stopSet := true, pauseOpen := true }

/-- The user actions that can reach the controller between chunk
boundaries. -/
inductive UiAct
  | pausePress
  | stopPress
deriving DecidableEq

/-- Apply a burst of user actions to the controller state. -/
def applyActs (st : CtrlState) : List UiAct → CtrlState
  | [] => st
  | UiAct.pausePress :: rest => applyActs (pause_job st) rest
  | UiAct.stopPress :: rest => applyActs (stop_job st) rest

/-- _reset_job_flags: clear the cancellation flag and open the gate. -/
def reset_job_flags (st : CtrlState) : CtrlState :=
  { st with stopSet := false, pauseOpen := true }

/-- _end_job_cleanup: back to idle, flags reset; the boolean records
whether an offline-engine reinit was scheduled (the _restart_after_stop
branch). -/
def end_job_cleanup (st : CtrlState) : CtrlState × Bool :=
  let st1 := reset_job_flags { st with currentJob := JobKind.idle }
  if st1.restartAfterStop then ({ st1 with restartAfterStop := false }, true)
  else (st1, false)

/-- The staged (UI draft) values read by save_and_apply_config. -/
structure Draft where
  outdir : List Char
  excludeFirst : Bool
  backend : List Char
  voice : List Char
  rate : List Char
  pitch : List Char
  tld : List Char
  speed : List Char
  readRate : Int
  readVoice : List Char
  chunk : Int
deriving DecidableEq

/-- The observable outcome of a commit attempt, one per return path of
save_and_apply_config: the silent early return while busy, the two
error-dialog returns, and the successful application (which also
persists the config and reinitializes the offline engine). -/
inductive CommitOutcome
  | busyNoop
  | errEmptyDir
  | errBadDir
  | applied
deriving DecidableEq

/-- Whether the commit path shows an error dialog (messagebox.showerror)
and logs an error.  The busy path shows nothing. -/
def showsError : CommitOutcome → Bool
  | CommitOutcome.errEmptyDir => true
  | CommitOutcome.errBadDir => true
  | _ => false

/-- save_and_apply_config from main.py.  mkdirOk stands for whether
Path(outdir).mkdir succeeds; the save-to-disk, log-file and UI-label
side effects have no controller-visible state. -/
def save_and_apply_config (st : CtrlState) (d : Draft) (mkdirOk : Bool) :
    CtrlState × CommitOutcome :=
  if st.isBusy then (st, CommitOutcome.busyNoop)
  else
    let outdir := pyStrip d.outdir
    if outdir = [] then (st, CommitOutcome.errEmptyDir)
    else if mkdirOk = false then (st, CommitOutcome.errBadDir)
    else
      let cfg' : AppConfig :=
        { exclude_first_line := d.excludeFirst,
          output_dir := outdir,
          mp3_backend := pyLower (orDefault (pyStrip d.backend) edgeStr),
          mp3_voice := orDefault (pyStrip d.voice) defaultVoiceStr,
          mp3_rate := orDefault (pyStrip d.rate) defaultRateStr,
          mp3_pitch := orDefault (pyStrip d.pitch) defaultPitchStr,
          gt_tld_label := d.tld,
          gt_speed := d.speed,
          read_voice_name := d.readVoice,
          read_rate := d.readRate,
          chunk_max_chars := d.chunk }
      ({ st with cfg := cfg' }, CommitOutcome.applied)

/-- _get_text_to_speak with use_applied_cfg=True from main.py. -/
def get_text_to_speak (text : List Char) (cfg : AppConfig) : List Char :=
  let raw := pyStrip text
  if raw = [] then []
  else if cfg.exclude_first_line then
    let body := pyStrip (joinWithNewline (pySplitlines raw).tail)
    if body = [] then raw else body
  else raw

/-- The base name of the render output file: generate_mp3 picks the
first non-empty line of the stripped editor text and unique_path
sanitizes it (max_len left at its default 120). -/
def genBaseName (text : List Char) : List Char :=
  sanitize_filename (pick_first_nonempty_line (pyStrip text)) 120

/-- Observable job events, in order: progress-bar updates, one audio
playback per chunk (read mode), one synthesized segment per chunk with
its backend (render mode), the concatenation step, and offline-engine
reinitializations. -/
inductive Ev
  | progress (pct : Nat)
  | sayChunk (c : List Char)
  | synthEdge (c : List Char)
  | synthGtts (c : List Char)
  | concatFfmpeg
  | concatNaive
  | reinit
deriving DecidableEq

/-- Terminal outcomes of one job. -/
inductive JobOutcome
  | completed
  | cancelled
  | failed
deriving DecidableEq

/-- The non-fatal notices appended to the completion dialog text of
generate_mp3. -/
inductive Warning
  | fallbackGtts
  | noFfmpeg
deriving DecidableEq

/-- A finished job: its event trace, the final controller state, the
terminal outcome and the completion-dialog warnings. -/
structure RunResult where
  events : List Ev
  final : CtrlState
  outcome : JobOutcome
  warnings : List Warning
deriving DecidableEq

/-- Result of triggering a job: rejected at the trigger (busy or empty
text), blocked forever on a pause gate nobody reopens, or finished. -/
inductive RunOut
  | notStarted
  | blocked
  | finished (r : RunResult)
deriving DecidableEq

/-- The chunk loop of the read_now worker.  Each chunk boundary first
receives its burst of user actions, then the worker performs the two
cancellation checks around the pause wait (collapsed into one check, as
no action arrives between them in this interleaving model) and blocks
on a closed gate.  Progress int((idx / total) * 100) is embedded as the
natural floor idx * 100 / total; the IEEE double can undershoot that
floor by one on some ratios, which no claim here distinguishes, and the
two agree at idx = total.  Cancellation is modelled at chunk boundaries,
matching the cooperative protocol of the source. -/
def readLoop (total : Nat) :
    Nat → List (List UiAct) → List (List Char) → CtrlState →
    Option (List Ev × CtrlState)
  | _, _, [], st => some ([], st)
  | idx, sched, chunk :: rest, st =>
    let st1 := applyActs st (sched.headD [])
    if st1.stopSet then some ([], st1)
    else if st1.pauseOpen = false then none
    else
      match readLoop total (idx + 1) sched.tail rest st1 with
      | none => none
      | some (evs, st2) =>
        some (Ev.progress (idx * 100 / total) :: Ev.sayChunk chunk :: evs, st2)

/-- read_now from main.py: trigger checks, flag reset, chunking with the
bound max(800, chunk_max_chars), the worker loop, the post-loop
cancellation check (finalActs are the actions arriving during the last
playback, observed only by that check), and _end_job_cleanup. -/
def read_now_run (st0 : CtrlState) (text : List Char) (sched : List (List UiAct))
    (finalActs : List UiAct) : RunOut :=
  if st0.isBusy then RunOut.notStarted
  else
    let tts := get_text_to_speak text st0.cfg
    if tts = [] then RunOut.notStarted
    else
      let st1 : CtrlState :=
        { st0 with stopSet := false, pauseOpen := true,
                   currentJob := JobKind.read, isBusy := true }
      let chunks := smart_split_text tts (max 800 st0.cfg.chunk_max_chars)
      let total := max 1 chunks.length
      match readLoop total 1 sched chunks st1 with
      | none => RunOut.blocked
      | some (evs, st2) =>
        let st3 := applyActs st2 finalActs
        let st4 : CtrlState := { st3 with isBusy := false }
        let pair := end_job_cleanup st4
        if st3.stopSet then
          RunOut.finished
            { events := Ev.progress 0 :: evs ++ (if pair.2 then [Ev.reinit] else []),
              final := pair.1,
              outcome := JobOutcome.cancelled,
              warnings := [] }
        else
          RunOut.finished
            { events := Ev.progress 0 :: evs ++ [Ev.progress 100]
                          ++ (if pair.2 then [Ev.reinit] else []),
              final := pair.1,
              outcome := JobOutcome.completed,
              warnings := [] }

/-- The chunk loop of the generate_mp3 worker: cancellation raises at a
chunk boundary, progress int((idx / total) * 95) is the floor
idx * 95 / total, and each chunk synthesizes through Edge when the
configured backend is edge and the client is available, else gTTS. -/
def genLoop (total : Nat) (useEdge : Bool) :
    Nat → List (List UiAct) → List (List Char) → CtrlState →
    Option (List Ev × CtrlState)
  | _, _, [], st => some ([], st)
  | idx, sched, chunk :: rest, st =>
    let st1 := applyActs st (sched.headD [])
    if st1.stopSet then some ([], st1)
    else if st1.pauseOpen = false then none
    else
      match genLoop total useEdge (idx + 1) sched.tail rest st1 with
      | none => none
      | some (evs, st2) =>
        some (Ev.progress (idx * 95 / total)
                :: (if useEdge then Ev.synthEdge chunk else Ev.synthGtts chunk) :: evs,
              st2)

/-- generate_mp3 from main.py: trigger checks, chunking under the
applied bound, the worker loop, the concatenation step at 95 percent
(ffmpeg when available else the naive byte concatenation; concatFails
injects a non-zero ffmpeg exit), the success path with its progress 100,
engine reinit and completion-dialog warnings, the cancellation path (the
raised RuntimeError whose message the handler classifies as a
cancellation), and _end_job_cleanup on every path.  A successful run of
a non-empty text always has at least one chunk, so the no-parts guard of
concat_mp3_ffmpeg is unreachable here. -/
def generate_mp3_run (st0 : CtrlState) (text : List Char) (sched : List (List UiAct))
    (edgeAvail ffmpegOk concatFails : Bool) : RunOut :=
  if st0.isBusy then RunOut.notStarted
  else if pyStrip text = [] then RunOut.notStarted
  else
    let tts := get_text_to_speak text st0.cfg
    if tts = [] then RunOut.notStarted
    else
      let st1 : CtrlState :=
        { st0 with stopSet := false, pauseOpen := true,
                   currentJob := JobKind.gen, isBusy := true }
      let chunks := smart_split_text tts st0.cfg.chunk_max_chars
      let total := max 1 chunks.length
      let backend := pyLower (orDefault (pyStrip st0.cfg.mp3_backend) edgeStr)
      let useEdge := backend == edgeStr && edgeAvail
      match genLoop total useEdge 1 sched chunks st1 with
      | none => RunOut.blocked
      | some (evs, st2) =>
        let st3 : CtrlState := { st2 with isBusy := false }
        let pair := end_job_cleanup st3
        if st2.stopSet then
          RunOut.finished
            { events := Ev.progress 0 :: evs ++ (if pair.2 then [Ev.reinit] else []),
              final := pair.1,
              outcome := JobOutcome.cancelled,
              warnings := [] }
        else if ffmpegOk && concatFails then
          RunOut.finished
            { events := Ev.progress 0 :: evs ++ [Ev.progress 95, Ev.concatFfmpeg]
                          ++ (if pair.2 then [Ev.reinit] else []),
              final := pair.1,
              outcome := JobOutcome.failed,
              warnings := [] }
        else
          RunOut.finished
            { events := Ev.progress 0 :: evs
                          ++ [Ev.progress 95,
                              if ffmpegOk then Ev.concatFfmpeg else Ev.concatNaive,
                              Ev.progress 100, Ev.reinit]
                          ++ (if pair.2 then [Ev.reinit] else []),
              final := pair.1,
              outcome := JobOutcome.completed,
              warnings := (if backend == edgeStr && !edgeAvail then [Warning.fallbackGtts] else [])
                            ++ (if !ffmpegOk then [Warning.noFfmpeg] else []) }

/-- The progress-bar updates of a trace, in order. -/
def progressList : List Ev → List Nat
  | [] => []
  | Ev.progress p :: t => p :: progressList t
  | _ :: t => progressList t

/-- Number of offline-engine reinitializations in a trace. -/
def countReinit : List Ev → Nat
  | [] => 0
  | Ev.reinit :: t => countReinit t + 1
  | _ :: t => countReinit t

/-- Number of Edge-backend synthesis calls in a trace. -/
def countEdgeSynth : List Ev → Nat
  | [] => 0
  | Ev.synthEdge _ :: t => countEdgeSynth t + 1
  | _ :: t => countEdgeSynth t

/-- The terminal outcome of a run, when it finished. -/
def outcomeOf : RunOut → Option JobOutcome
  | RunOut.finished r => some r.outcome
  | _ => none

/-- The event trace of a finished run. -/
def eventsOf : RunOut → List Ev
  | RunOut.finished r => r.events
  | _ => []

/-- The progress updates of a finished run. -/
def progressOf (ro : RunOut) : List Nat := progressList (eventsOf ro)

/-- The completion warnings of a finished run. -/
def warningsOf : RunOut → List Warning
  | RunOut.finished r => r.warnings
  | _ => []

/-- Terminal-state cleanup held: gate open, cancellation flag clear,
controller idle and not busy. -/
def cleanedUp : RunOut → Bool
  | RunOut.finished r =>
    r.final.pauseOpen && !r.final.stopSet
      && r.final.currentJob == JobKind.idle && !r.final.isBusy
  | _ => true

/-- The reinit budget of claim C4 for a speak job: one on cancellation,
none on success. -/
def c4read : RunOut → Bool
  | RunOut.finished r =>
    match r.outcome with
    | JobOutcome.cancelled => countReinit r.events == 1
    | JobOutcome.completed => countReinit r.events == 0
    | JobOutcome.failed => true
  | _ => true

/-- The reinit budget of claim C4 for a render job: one on cancellation
and one on success. -/
def c4gen : RunOut → Bool
  | RunOut.finished r =>
    match r.outcome with
    | JobOutcome.cancelled => countReinit r.events == 1
    | JobOutcome.completed => countReinit r.events == 1
    | JobOutcome.failed => true
  | _ => true

/-- A render run shows progress 100 only if it completed. -/
def gen100only : RunOut → Bool
  | RunOut.finished r =>
    !((progressList r.events).contains 100) || (r.outcome == JobOutcome.completed)
  | _ => true

/-- A completed speak run does reach progress 100. -/
def read100done : RunOut → Bool
  | RunOut.finished r =>
    !(r.outcome == JobOutcome.completed) || ((progressList r.events).contains 100)
  | _ => true

/-- Bounded monotonicity: the list is non-decreasing, starts at or
above lo and stays at or below hi. -/
def monoBnd : Nat → Nat → List Nat → Bool
  | _, _, [] => true
  | lo, hi, p :: rest => decide (lo ≤ p) && decide (p ≤ hi) && monoBnd p hi rest

/-- The list is non-decreasing. -/
def nondecB : List Nat → Bool
  | [] => true
  | [_] => true
  | a :: b :: t => decide (a ≤ b) && nondecB (b :: t)

/-- A fixed applied configuration for the concrete test states. -/
def cfg0 : AppConfig :=
  { exclude_first_line := false, output_dir := ['x'], mp3_backend := edgeStr,
    mp3_voice := defaultVoiceStr, mp3_rate := defaultRateStr,
    mp3_pitch := defaultPitchStr, gt_tld_label := ['p', 't'],
    gt_speed := ['N'], read_voice_name := [], read_rate := 175,
    chunk_max_chars := 1100 }

/-- A controller state in the middle of a render job. -/
def busySt : CtrlState :=
  { isBusy := true, pauseOpen := true, stopSet := false,
    currentJob := JobKind.gen, restartAfterStop := false, cfg := cfg0 }

/-- A draft with a non-empty output directory. -/
def draft0 : Draft :=
  { outdir := ['x'], excludeFirst := false, backend := edgeStr, voice := [],
    rate := [], pitch := [], tld := [], speed := [], readRate := 175,
    readVoice := [], chunk := 1100 }

/-- A two-character input text. -/
def exTextOi : List Char := ['o', 'i']

/-- A text whose only sentence terminator inside the first window sits
exactly at position 165 = 300 * 55 / 100. -/
def ex8 : List Char := List.replicate 165 'a' ++ '.' :: List.replicate 200 'a'

/-- A window of length 300 whose only sentence terminator sits at
position 166, strictly inside the scan zone. -/
def w8 : List Char := List.replicate 166 'a' ++ '.' :: List.replicate 133 'a'

/-- The sample input of the spec for sanitization. -/
def relatorioStr : List Char :=
  ['R', 'e', 'l', 'a', 't', 'ó', 'r', 'i', 'o', ':', ' ',
   'Q', '3', '/', '2', '0', '2', '5', '?']

/-- The expected sanitized output for relatorioStr. -/
def relatorioClean : List Char :=
  ['R', 'e', 'l', 'a', 't', 'ó', 'r', 'i', 'o', '_', ' ',
   'Q', '3', '_', '2', '0', '2', '5', '_']

/-- A two-line input whose first line is relatorioStr. -/
def text9 : List Char := relatorioStr ++ '\n' :: ['c', 'o', 'r', 'p', 'o']


/-! ## Lemmas about the backward searches of the segmenter -/

theorem rfindIdx_some_spec (p : Char → Bool) :
    ∀ (l : List Char) (k : Nat), rfindIdx p l = some k →
      k < l.length ∧ p (l.getD k ' ') = true := by
  intro l
  induction l with
  | nil => intro k h; simp [rfindIdx] at h
  | cons c t ih =>
    intro k h
    cases ht : rfindIdx p t with
    | some j =>
      simp only [rfindIdx, ht] at h
      obtain ⟨hj1, hj2⟩ := ih j ht
      cases h
      refine ⟨?_, ?_⟩
      · simp only [List.length_cons]
        omega
      · simpa [List.getD_cons_succ] using hj2
    | none =>
      simp only [rfindIdx, ht] at h
      by_cases hc : p c = true
      · simp only [hc, if_true] at h
        cases h
        exact ⟨by simp, by simpa using hc⟩
      · simp [hc] at h

theorem rfindIdx_none_forall (p : Char → Bool) :
    ∀ l : List Char, rfindIdx p l = none →
      ∀ k, k < l.length → p (l.getD k ' ') = false := by
  intro l
  induction l with
  | nil => intro _ k hk; simp at hk
  | cons c t ih =>
    intro h k hk
    cases ht : rfindIdx p t with
    | some j =>
      simp only [rfindIdx, ht] at h
      simp at h
    | none =>
      simp only [rfindIdx, ht] at h
      by_cases hc : p c = true
      · simp [hc] at h
      · cases k with
        | zero =>
          rw [List.getD_cons_zero]
          exact Bool.eq_false_iff.mpr hc
        | succ m =>
          rw [List.getD_cons_succ]
          simp only [List.length_cons] at hk
          exact ih ht m (by omega)

theorem rfindIdx_eq_none (p : Char → Bool) (l : List Char) :
    rfindIdx p l = none ↔ ∀ k, k < l.length → p (l.getD k ' ') = false := by
  constructor
  · exact rfindIdx_none_forall p l
  · intro h
    cases hm : rfindIdx p l with
    | none => rfl
    | some m =>
      obtain ⟨h1, h2⟩ := rfindIdx_some_spec p l m hm
      rw [h m h1] at h2
      cases h2

theorem rfindIdx_max (p : Char → Bool) :
    ∀ (l : List Char) (k : Nat), rfindIdx p l = some k →
      ∀ j, j < l.length → p (l.getD j ' ') = true → j ≤ k := by
  intro l
  induction l with
  | nil => intro k h; simp [rfindIdx] at h
  | cons c t ih =>
    intro k h j hj hp
    simp only [List.length_cons] at hj
    cases ht : rfindIdx p t with
    | some m =>
      simp only [rfindIdx, ht] at h
      cases h
      cases j with
      | zero => omega
      | succ i =>
        rw [List.getD_cons_succ] at hp
        have := ih m ht i (by omega) hp
        omega
    | none =>
      simp only [rfindIdx, ht] at h
      by_cases hc : p c = true
      · simp only [hc, if_true] at h
        cases h
        cases j with
        | zero => omega
        | succ i =>
          rw [List.getD_cons_succ] at hp
          have := rfindIdx_none_forall p t ht i (by omega)
          rw [hp] at this
          cases this
      · simp [hc] at h

theorem rfindIdx_found (p : Char → Bool) (l : List Char) (j : Nat)
    (hj : j < l.length) (hp : p (l.getD j ' ') = true) :
    ∃ m, rfindIdx p l = some m ∧ j ≤ m ∧ p (l.getD m ' ') = true := by
  cases hm : rfindIdx p l with
  | none =>
    have := rfindIdx_none_forall p l hm j hj
    rw [hp] at this
    cases this
  | some m =>
    exact ⟨m, rfl, rfindIdx_max p l m hm j hj hp,
      (rfindIdx_some_spec p l m hm).2⟩

theorem scanBack_succ_eq (w : List Char) (lo n : Nat) :
    scanBack w lo (n + 1) =
      if n + 1 ≤ lo then none
      else if sentenceBreak (w.getD (n + 1) ' ') = true then some (n + 1)
      else scanBack w lo n := rfl

theorem scanBack_some_spec (w : List Char) (lo : Nat) :
    ∀ (k j : Nat), scanBack w lo k = some j →
      lo < j ∧ j ≤ k ∧ sentenceBreak (w.getD j ' ') = true := by
  intro k
  induction k with
  | zero => intro j h; simp [scanBack] at h
  | succ n ih =>
    intro j h
    rw [scanBack_succ_eq] at h
    by_cases h1 : n + 1 ≤ lo
    · rw [if_pos h1] at h; cases h
    · rw [if_neg h1] at h
      by_cases h2 : sentenceBreak (w.getD (n + 1) ' ') = true
      · rw [if_pos h2] at h
        cases h
        exact ⟨by omega, by omega, h2⟩
      · rw [if_neg h2] at h
        obtain ⟨a, b, c⟩ := ih j h
        exact ⟨a, by omega, c⟩

theorem scanBack_none_forall (w : List Char) (lo : Nat) :
    ∀ k, scanBack w lo k = none →
      ∀ j, lo < j → j ≤ k → sentenceBreak (w.getD j ' ') = false := by
  intro k
  induction k with
  | zero => intro _ j h1 h2; omega
  | succ n ih =>
    intro h j h1 h2
    rw [scanBack_succ_eq] at h
    by_cases ha : n + 1 ≤ lo
    · omega
    · rw [if_neg ha] at h
      by_cases hb : sentenceBreak (w.getD (n + 1) ' ') = true
      · rw [if_pos hb] at h; cases h
      · rw [if_neg hb] at h
        rcases Nat.lt_or_ge j (n + 1) with hlt | hge
        · exact ih h j h1 (by omega)
        · have hj : j = n + 1 := by omega
          subst hj
          exact Bool.eq_false_iff.mpr hb

theorem scanBack_eq_none (w : List Char) (lo k : Nat) :
    scanBack w lo k = none ↔
      ∀ j, lo < j → j ≤ k → sentenceBreak (w.getD j ' ') = false := by
  constructor
  · exact scanBack_none_forall w lo k
  · intro h
    cases hm : scanBack w lo k with
    | none => rfl
    | some j =>
      obtain ⟨a, b, c⟩ := scanBack_some_spec w lo k j hm
      rw [h j a b] at c
      cases c

theorem scanBack_finds (w : List Char) (lo j : Nat)
    (hj1 : lo < j) (hp : sentenceBreak (w.getD j ' ') = true) :
    ∀ k, j ≤ k → (∀ m, j < m → m ≤ k → sentenceBreak (w.getD m ' ') = false) →
      scanBack w lo k = some j := by
  intro k
  induction k with
  | zero =>
    intro hk _
    omega
  | succ n ih =>
    intro hk habove
    rw [scanBack_succ_eq, if_neg (by omega : ¬ (n + 1 ≤ lo))]
    by_cases he : j = n + 1
    · subst he
      rw [if_pos hp]
    · have hlt : j ≤ n := by omega
      have h2 : sentenceBreak (w.getD (n + 1) ' ') = false :=
        habove (n + 1) (by omega) (by omega)
      have h2' : ¬ sentenceBreak (w.getD (n + 1) ' ') = true := by
        rw [h2]
        exact Bool.false_ne_true
      rw [if_neg h2']
      exact ih hlt (fun m hm1 hm2 => habove m hm1 (by omega))

/-! ## Bounds on the chosen cut -/

theorem nlCut_bounds (w : List Char) (mc c : Nat) (h : nlCut w mc = some c) :
    0 < c ∧ c ≤ w.length := by
  unfold nlCut at h
  split at h
  next nl hnl =>
    split at h
    · cases h
      have := (rfindIdx_some_spec _ w nl hnl).1
      omega
    · cases h
  next => cases h

theorem termCut_bounds (w : List Char) (mc c : Nat) (h : termCut w mc = some c) :
    0 < c ∧ c ≤ w.length := by
  unfold termCut at h
  split at h
  next k hs =>
    cases h
    obtain ⟨_, hk, _⟩ := scanBack_some_spec w (mc * 55 / 100) (w.length - 1) k hs
    have hpos : 0 < w.length := by
      rcases Nat.eq_zero_or_pos w.length with h0 | h0
      · rw [h0] at hs
        simp [scanBack] at hs
      · exact h0
    omega
  next => cases h

theorem spaceCut_bounds (w : List Char) (mc c : Nat) (h : spaceCut w mc = some c) :
    0 < c ∧ c ≤ w.length := by
  unfold spaceCut at h
  split at h
  next sp hsp =>
    split at h
    · cases h
      have := (rfindIdx_some_spec _ w sp hsp).1
      omega
    · cases h
  next => cases h

theorem chooseBreak_some_bounds (w : List Char) (mc c : Nat)
    (h : chooseBreak w mc = some c) : 0 < c ∧ c ≤ w.length := by
  unfold chooseBreak at h
  split at h
  · rename_i a h1
    cases h
    exact nlCut_bounds w mc c h1
  · rename_i h1
    split at h
    · rename_i a h2
      cases h
      exact termCut_bounds w mc c h2
    · exact spaceCut_bounds w mc c h

theorem findCut_le (w : List Char) (mc : Nat) : findCut w mc ≤ w.length := by
  unfold findCut
  cases h : chooseBreak w mc with
  | none => simp
  | some c => simpa using (chooseBreak_some_bounds w mc c h).2

theorem findCut_pos (w : List Char) (mc : Nat) (hw : w ≠ []) :
    0 < findCut w mc := by
  unfold findCut
  cases h : chooseBreak w mc with
  | none =>
    simp only [Option.getD_none]
    exact List.length_pos.mpr hw
  | some c => simpa using (chooseBreak_some_bounds w mc c h).1

/-! ## The raw pieces of the segmentation loop -/

theorem splitGo_succ_eq (n mc : Nat) (s : List Char) :
    splitGo (n + 1) mc s =
      if s = [] then []
      else if s.length ≤ mc then [s]
      else findCut (s.take mc) mc |> fun cut =>
        s.take cut :: splitGo n mc (s.drop cut) := rfl

theorem take_mc_ne_nil (mc : Nat) (s : List Char) (hs : s ≠ []) (hmc : 1 ≤ mc) :
    s.take mc ≠ [] := by
  have h1 : 0 < s.length := List.length_pos.mpr hs
  have h2 : 0 < (s.take mc).length := by
    rw [List.length_take]
    omega
  exact List.length_pos.mp h2

theorem splitGo_join :
    ∀ (fuel mc : Nat) (s : List Char), s.length < fuel → 1 ≤ mc →
      (splitGo fuel mc s).flatten = s := by
  intro fuel
  induction fuel with
  | zero => intro mc s h _; omega
  | succ n ih =>
    intro mc s h hmc
    rw [splitGo_succ_eq]
    by_cases hs : s = []
    · rw [if_pos hs, hs]; rfl
    · rw [if_neg hs]
      by_cases hl : s.length ≤ mc
      · rw [if_pos hl]; simp
      · rw [if_neg hl]
        have hw : s.take mc ≠ [] := take_mc_ne_nil mc s hs hmc
        have hcut : 0 < findCut (s.take mc) mc := findCut_pos _ _ hw
        have hdrop : (s.drop (findCut (s.take mc) mc)).length < n := by
          rw [List.length_drop]
          omega
        show (s.take (findCut (s.take mc) mc)
                :: splitGo n mc (s.drop (findCut (s.take mc) mc))).flatten = s
        rw [List.flatten_cons, ih mc _ hdrop hmc, List.take_append_drop]

theorem splitGo_piece_le :
    ∀ (fuel mc : Nat) (s piece : List Char), piece ∈ splitGo fuel mc s →
      piece.length ≤ mc := by
  intro fuel
  induction fuel with
  | zero => intro mc s piece h; simp [splitGo] at h
  | succ n ih =>
    intro mc s piece h
    rw [splitGo_succ_eq] at h
    by_cases hs : s = []
    · rw [if_pos hs] at h; simp at h
    · rw [if_neg hs] at h
      by_cases hl : s.length ≤ mc
      · rw [if_pos hl] at h
        simp at h
        subst h
        exact hl
      · rw [if_neg hl] at h
        simp only [List.mem_cons] at h
        rcases h with h | h
        · subst h
          have h1 : findCut (s.take mc) mc ≤ (s.take mc).length := findCut_le _ _
          rw [List.length_take] at h1
          rw [List.length_take]
          omega
        · exact ih mc _ piece h

theorem splitGo_head (mc : Nat) (s : List Char) (fuel : Nat)
    (hs : s ≠ []) (hmc : 1 ≤ mc) (hf : 0 < fuel) :
    ∃ q rest, splitGo fuel mc s = q :: rest ∧ q ≠ [] ∧ q.headD ' ' = s.headD ' ' := by
  cases fuel with
  | zero => omega
  | succ n =>
    rw [splitGo_succ_eq, if_neg hs]
    by_cases hl : s.length ≤ mc
    · rw [if_pos hl]
      exact ⟨s, [], rfl, hs, rfl⟩
    · rw [if_neg hl]
      have hw : s.take mc ≠ [] := take_mc_ne_nil mc s hs hmc
      have hcut : 0 < findCut (s.take mc) mc := findCut_pos _ _ hw
      cases s with
      | nil => exact absurd rfl hs
      | cons c t =>
        obtain ⟨m, hm⟩ : ∃ m, findCut ((c :: t).take mc) mc = m + 1 :=
          ⟨findCut ((c :: t).take mc) mc - 1, by omega⟩
        refine ⟨(c :: t).take (findCut ((c :: t).take mc) mc), _, rfl, ?_, ?_⟩
        · rw [hm, List.take_succ_cons]
          simp
        · rw [hm, List.take_succ_cons]
          rfl

/-! ## Lemmas about the strips -/

theorem rstripP_cons_nil (p : Char → Bool) (c : Char) (t : List Char)
    (h : rstripP p t = []) :
    rstripP p (c :: t) = if p c then [] else [c] := by
  unfold rstripP
  rw [h]

theorem rstripP_cons_cons (p : Char → Bool) (c : Char) (t a : List Char) (b : Char)
    (h : rstripP p t = b :: a) :
    rstripP p (c :: t) = c :: b :: a := by
  unfold rstripP
  rw [h]

theorem rstripP_head (p : Char → Bool) (c : Char) (t : List Char) (hc : p c = false) :
    ∃ r, rstripP p (c :: t) = c :: r := by
  cases h : rstripP p t with
  | nil =>
    refine ⟨[], ?_⟩
    rw [rstripP_cons_nil p c t h, if_neg (by simp [hc])]
  | cons b a =>
    exact ⟨b :: a, rstripP_cons_cons p c t a b h⟩

theorem rstripP_nil_iff (p : Char → Bool) :
    ∀ l : List Char, rstripP p l = [] ↔ l.all p = true := by
  intro l
  induction l with
  | nil => simp [rstripP]
  | cons c t ih =>
    cases h : rstripP p t with
    | nil =>
      have hall : t.all p = true := ih.mp h
      rw [rstripP_cons_nil p c t h]
      by_cases hc : p c = true
      · simp [hc, hall]
      · simp [List.all_cons, hc, hall]
    | cons b a =>
      rw [rstripP_cons_cons p c t a b h]
      have hxf : ¬ t.all p = true := by
        intro hall
        rw [ih.mpr hall] at h
        cases h
      have hf : t.all p = false := Bool.eq_false_iff.mpr hxf
      simp [List.all_cons, hf]

theorem rstripP_length_le (p : Char → Bool) :
    ∀ l : List Char, (rstripP p l).length ≤ l.length := by
  intro l
  induction l with
  | nil => simp [rstripP]
  | cons c t ih =>
    cases h : rstripP p t with
    | nil =>
      rw [rstripP_cons_nil p c t h]
      by_cases hc : p c = true
      · simp [hc]
      · simp [hc]
    | cons b a =>
      rw [rstripP_cons_cons p c t a b h]
      rw [h] at ih
      simp only [List.length_cons] at ih ⊢
      omega

theorem rstripP_mem (p : Char → Bool) :
    ∀ (l : List Char) (c : Char), c ∈ rstripP p l → c ∈ l := by
  intro l
  induction l with
  | nil => intro c h; simp [rstripP] at h
  | cons x t ih =>
    intro c h
    cases ht : rstripP p t with
    | nil =>
      rw [rstripP_cons_nil p x t ht] at h
      by_cases hx : p x = true
      · simp [hx] at h
      · rw [if_neg (by simp [hx])] at h
        simp at h
        simp [h]
    | cons b a =>
      rw [rstripP_cons_cons p x t a b ht] at h
      rcases List.mem_cons.mp h with h | h
      · simp [h]
      · have hm : c ∈ rstripP p t := by rw [ht]; exact h
        exact List.mem_cons_of_mem x (ih c hm)

theorem dropWhile_head_false (p : Char → Bool) :
    ∀ l : List Char, l.dropWhile p ≠ [] → p ((l.dropWhile p).headD ' ') = false := by
  intro l
  induction l with
  | nil => intro h; simp [List.dropWhile] at h
  | cons c t ih =>
    intro h
    rw [List.dropWhile_cons] at h ⊢
    by_cases hc : p c = true
    · rw [if_pos hc] at h ⊢
      exact ih h
    · rw [if_neg hc] at h ⊢
      simpa using Bool.eq_false_iff.mpr hc

theorem dropWhile_length_le (p : Char → Bool) :
    ∀ l : List Char, (l.dropWhile p).length ≤ l.length := by
  intro l
  induction l with
  | nil => simp
  | cons c t ih =>
    rw [List.dropWhile_cons]
    by_cases hc : p c = true
    · rw [if_pos hc]
      simp only [List.length_cons]
      omega
    · rw [if_neg hc]

theorem dropWhile_all (p : Char → Bool) :
    ∀ l : List Char, (l.dropWhile p).all p = l.all p := by
  intro l
  induction l with
  | nil => rfl
  | cons c t ih =>
    rw [List.dropWhile_cons]
    by_cases hc : p c = true
    · rw [if_pos hc]
      simp [List.all_cons, hc, ih]
    · rw [if_neg hc]

theorem pyStrip_nil_iff (s : List Char) :
    pyStrip s = [] ↔ s.all pySpace = true := by
  unfold pyStrip
  rw [rstripP_nil_iff, dropWhile_all]

theorem pyStrip_length_le (s : List Char) : (pyStrip s).length ≤ s.length := by
  have h1 := rstripP_length_le pySpace (s.dropWhile pySpace)
  have h2 := dropWhile_length_le pySpace s
  unfold pyStrip
  omega

theorem pyStrip_head_false (s : List Char) (h : pyStrip s ≠ []) :
    pySpace ((pyStrip s).headD ' ') = false := by
  cases hu : s.dropWhile pySpace with
  | nil =>
    exfalso
    apply h
    unfold pyStrip
    rw [hu]
    rfl
  | cons c t =>
    have hne : s.dropWhile pySpace ≠ [] := by rw [hu]; simp
    have hc : pySpace c = false := by
      have hx := dropWhile_head_false pySpace s hne
      rw [hu] at hx
      simpa using hx
    obtain ⟨r, hr⟩ := rstripP_head pySpace c t hc
    have hps : pyStrip s = c :: r := by
      unfold pyStrip
      rw [hu, hr]
    rw [hps]
    exact hc

theorem pyStrip_cons_ne (c : Char) (t : List Char) (hc : pySpace c = false) :
    pyStrip (c :: t) ≠ [] := by
  unfold pyStrip
  rw [List.dropWhile_cons, if_neg (by simp [hc])]
  obtain ⟨r, hr⟩ := rstripP_head pySpace c t hc
  rw [hr]
  simp

theorem normalizeCRLF_cons_eq (c : Char) (rest : List Char)
    (h : ∀ rest2 : List Char, c = '\r' → rest = '\n' :: rest2 → False) :
    normalizeCRLF (c :: rest) = c :: normalizeCRLF rest := by
  conv_lhs => unfold normalizeCRLF
  split
  · rename_i heq
    exact absurd heq (by simp)
  · rename_i r2 heq
    injection heq with h1 h2
    exact (h r2 h1 h2).elim
  · rename_i x c2 r2 hne heq
    injection heq with h1 h2
    rw [h1, h2]

theorem normalizeCRLF_all_space :
    ∀ t : List Char, (normalizeCRLF t).all pySpace = t.all pySpace := by
  intro t
  induction t using normalizeCRLF.induct with
  | case1 => rfl
  | case2 rest ih =>
    show (('\n' :: normalizeCRLF rest).all pySpace) = (('\r' :: '\n' :: rest).all pySpace)
    have h1 : pySpace '\n' = true := by decide
    have h2 : pySpace '\r' = true := by decide
    rw [List.all_cons, List.all_cons, List.all_cons, ih, h1, h2]
    simp
  | case3 c rest hne ih =>
    rw [normalizeCRLF_cons_eq c rest (fun r2 h1 h2 => hne r2 h1 h2)]
    rw [List.all_cons, List.all_cons, ih]

/-! ## Characterization of the chosen break -/

theorem clampChunk_ge (x : Int) : 300 ≤ clampChunk x := by
  unfold clampChunk
  have h := le_max_left (300 : Int) x
  omega

theorem chunkOf_some (piece c : List Char) (h : chunkOf piece = some c) :
    c = pyStrip piece ∧ c ≠ [] := by
  unfold chunkOf at h
  by_cases hp : pyStrip piece = []
  · rw [if_pos hp] at h
    cases h
  · rw [if_neg hp] at h
    cases h
    exact ⟨rfl, hp⟩

theorem nlCut_none_forall (w : List Char) (mc : Nat) (h : nlCut w mc = none) :
    ∀ k, k < w.length → w.getD k ' ' = '\n' → k < mc * 60 / 100 := by
  intro k hk hc
  unfold nlCut at h
  cases hnl : rfindIdx (fun c => c = '\n') w with
  | none =>
    have := rfindIdx_none_forall _ w hnl k hk
    rw [hc] at this
    simp at this
  | some nl =>
    simp only [hnl] at h
    by_cases ht : mc * 60 / 100 ≤ nl
    · rw [if_pos ht] at h; cases h
    · rw [if_neg ht] at h
      have := rfindIdx_max _ w nl hnl k hk (by simp only [decide_eq_true_eq]; exact hc)
      omega

theorem termCut_none_forall (w : List Char) (mc : Nat) (h : termCut w mc = none) :
    ∀ k, k < w.length → sentenceBreak (w.getD k ' ') = true → k ≤ mc * 55 / 100 := by
  intro k hk hb
  unfold termCut at h
  cases hs : scanBack w (mc * 55 / 100) (w.length - 1) with
  | some j =>
    simp only [hs] at h
    exact Option.noConfusion h
  | none =>
    by_contra hgt
    have := scanBack_none_forall w _ _ hs k (by omega) (by omega)
    rw [hb] at this
    cases this

theorem spaceCut_none_forall (w : List Char) (mc : Nat) (h : spaceCut w mc = none) :
    ∀ k, k < w.length → w.getD k ' ' = ' ' → k < mc * 55 / 100 := by
  intro k hk hc
  unfold spaceCut at h
  cases hsp : rfindIdx (fun c => c = ' ') w with
  | none =>
    have := rfindIdx_none_forall _ w hsp k hk
    rw [hc] at this
    simp at this
  | some sp =>
    simp only [hsp] at h
    by_cases ht : mc * 55 / 100 ≤ sp
    · rw [if_pos ht] at h; cases h
    · rw [if_neg ht] at h
      have := rfindIdx_max _ w sp hsp k hk (by simp only [decide_eq_true_eq]; exact hc)
      omega

theorem chooseBreak_none_stages (w : List Char) (mc : Nat) :
    chooseBreak w mc = none ↔
      nlCut w mc = none ∧ termCut w mc = none ∧ spaceCut w mc = none := by
  constructor
  · intro h
    unfold chooseBreak at h
    split at h
    · cases h
    · rename_i h1
      split at h
      · cases h
      · rename_i h2
        exact ⟨h1, h2, h⟩
  · intro ⟨h1, h2, h3⟩
    unfold chooseBreak
    simp only [h1, h2, h3]

theorem chooseBreak_none_iff (w : List Char) (mc : Nat) :
    chooseBreak w mc = none ↔ hasValidBreak w mc = false := by
  rw [chooseBreak_none_stages]
  constructor
  · intro ⟨h1, h2, h3⟩
    cases hb : hasValidBreak w mc with
    | false => rfl
    | true =>
      exfalso
      unfold hasValidBreak at hb
      obtain ⟨k, hkr, hkp⟩ := List.any_eq_true.mp hb
      have hk : k < w.length := List.mem_range.mp hkr
      unfold breakPredAt at hkp
      simp only [Bool.or_eq_true, Bool.and_eq_true, decide_eq_true_eq] at hkp
      rcases hkp with (⟨hc, ht⟩ | ⟨hc, ht⟩) | ⟨hc, ht⟩
      · have := nlCut_none_forall w mc h1 k hk hc
        omega
      · have := termCut_none_forall w mc h2 k hk hc
        omega
      · have := spaceCut_none_forall w mc h3 k hk hc
        omega
  · intro hb
    have hall : ∀ k, k < w.length → breakPredAt w mc k = false := by
      intro k hk
      cases hp : breakPredAt w mc k with
      | false => rfl
      | true =>
        exfalso
        have hx : hasValidBreak w mc = true := by
          unfold hasValidBreak
          exact List.any_eq_true.mpr ⟨k, List.mem_range.mpr hk, hp⟩
        rw [hb] at hx
        cases hx
    refine ⟨?_, ?_, ?_⟩
    · unfold nlCut
      cases hnl : rfindIdx (fun c => c = '\n') w with
      | none => simp only [hnl]
      | some nl =>
        simp only [hnl]
        obtain ⟨hlt, hc⟩ := rfindIdx_some_spec _ w nl hnl
        simp only [decide_eq_true_eq] at hc
        by_cases ht : mc * 60 / 100 ≤ nl
        · exfalso
          have := hall nl hlt
          unfold breakPredAt at this
          simp only [Bool.or_eq_false_iff, Bool.and_eq_false_iff] at this
          rcases this.1.1 with hx | hx
          · rw [hc] at hx; simp at hx
          · simp at hx; omega
        · rw [if_neg ht]
    · unfold termCut
      cases hs : scanBack w (mc * 55 / 100) (w.length - 1) with
      | none => simp only [hs]
      | some j =>
        exfalso
        obtain ⟨hlo, hhi, hbk⟩ := scanBack_some_spec w _ _ j hs
        have hpos : 0 < w.length := by
          rcases Nat.eq_zero_or_pos w.length with h0 | h0
          · rw [h0] at hs
            simp [scanBack] at hs
          · exact h0
        have hj : j < w.length := by omega
        have := hall j hj
        unfold breakPredAt at this
        simp only [Bool.or_eq_false_iff, Bool.and_eq_false_iff] at this
        rcases this.1.2 with hx | hx
        · rw [hbk] at hx; cases hx
        · simp at hx; omega
    · unfold spaceCut
      cases hsp : rfindIdx (fun c => c = ' ') w with
      | none => simp only [hsp]
      | some sp =>
        simp only [hsp]
        obtain ⟨hlt, hc⟩ := rfindIdx_some_spec _ w sp hsp
        simp only [decide_eq_true_eq] at hc
        by_cases ht : mc * 55 / 100 ≤ sp
        · exfalso
          have := hall sp hlt
          unfold breakPredAt at this
          simp only [Bool.or_eq_false_iff, Bool.and_eq_false_iff] at this
          rcases this.2 with hx | hx
          · rw [hc] at hx; simp at hx
          · simp at hx; omega
        · rw [if_neg ht]

/-! ## Claims about the segmenter -/

/-- Claim C1: for every input text and every chunk bound, concatenating
the raw pieces of the segmenter as originally cut (before the per-piece
trimming, hence with the separators consumed at each cut still in
place) reconstructs exactly the CRLF-normalized and stripped input
text; and smart_split_text is exactly the per-piece trim-and-drop of
those raw pieces. -/
theorem C1_reconstruction (text : List Char) (maxChars : Int) :
    (splitPieces (clampChunk maxChars) (pyStrip (normalizeCRLF text))).flatten
        = pyStrip (normalizeCRLF text)
  ∧ smart_split_text text maxChars
        = (splitPieces (clampChunk maxChars) (pyStrip (normalizeCRLF text))).filterMap
            chunkOf := by
  have hmc : 1 ≤ clampChunk maxChars := by
    have := clampChunk_ge maxChars
    omega
  constructor
  · unfold splitPieces
    exact splitGo_join _ _ _ (by omega) hmc
  · unfold smart_split_text
    by_cases hs : pyStrip (normalizeCRLF text) = []
    · rw [if_pos hs, hs]
      rfl
    · rw [if_neg hs]

/-- Claim C2: smart_split_text applies its bound through the clamp
max(300, maxChars); every emitted chunk is non-empty and no longer than
the clamped bound; and the segmenter falls through to the hard cut at
the full window length exactly when no valid break point (qualifying
newline, sentence terminator or space) exists in the window. -/
theorem C2_bounds_and_hard_cut (text : List Char) (maxChars : Int) :
    smart_split_text text maxChars = smart_split_text text (max 300 maxChars)
  ∧ (smart_split_text text maxChars).all
      (fun c => !c.isEmpty && decide (c.length ≤ clampChunk maxChars)) = true
  ∧ (∀ w : List Char, (chooseBreak w (clampChunk maxChars)).isNone
        = !hasValidBreak w (clampChunk maxChars))
  ∧ (∀ w : List Char, chooseBreak w (clampChunk maxChars) = none →
        findCut w (clampChunk maxChars) = w.length) := by
  refine ⟨?_, ?_, ?_, ?_⟩
  · unfold smart_split_text
    have hc : clampChunk maxChars = clampChunk (max 300 maxChars) := by
      unfold clampChunk
      rw [← max_assoc, max_self]
    rw [hc]
  · rw [List.all_eq_true]
    intro c hc
    unfold smart_split_text at hc
    by_cases hs : pyStrip (normalizeCRLF text) = []
    · rw [if_pos hs] at hc
      simp at hc
    · rw [if_neg hs] at hc
      obtain ⟨piece, hpiece, hco⟩ := List.mem_filterMap.mp hc
      obtain ⟨hceq, hcne⟩ := chunkOf_some piece c hco
      have hlen : piece.length ≤ clampChunk maxChars := by
        unfold splitPieces at hpiece
        exact splitGo_piece_le _ _ _ piece hpiece
      have hclen : c.length ≤ piece.length := by
        rw [hceq]
        exact pyStrip_length_le piece
      simp only [Bool.and_eq_true, Bool.not_eq_true', decide_eq_true_eq]
      constructor
      · cases hcc : c.isEmpty
        · rfl
        · exfalso
          exact hcne (List.isEmpty_iff.mp hcc)
      · omega
  · intro w
    cases hcb : chooseBreak w (clampChunk maxChars) with
    | none =>
      have := (chooseBreak_none_iff w (clampChunk maxChars)).mp hcb
      rw [this]
      rfl
    | some c =>
      cases hvb : hasValidBreak w (clampChunk maxChars) with
      | true => rfl
      | false =>
        have := (chooseBreak_none_iff w (clampChunk maxChars)).mpr hvb
        rw [this] at hcb
        cases hcb
  · intro w h
    unfold findCut
    rw [h]
    rfl

/-- Claim C10: for every chunk bound the segmenter returns the empty
chunk list exactly when the input text is empty or all whitespace; any
text with a non-whitespace character yields at least one chunk. -/
theorem C10_empty_iff (text : List Char) (maxChars : Int) :
    smart_split_text text maxChars = [] ↔ text.all pySpace = true := by
  unfold smart_split_text
  by_cases hs : pyStrip (normalizeCRLF text) = []
  · rw [if_pos hs]
    have h1 : (normalizeCRLF text).all pySpace = true := (pyStrip_nil_iff _).mp hs
    rw [normalizeCRLF_all_space] at h1
    simp [h1]
  · rw [if_neg hs]
    have hmc : 1 ≤ clampChunk maxChars := by
      have := clampChunk_ge maxChars
      omega
    constructor
    · intro h
      exfalso
      obtain ⟨q, rest, hq, hqne, hqh⟩ :=
        splitGo_head (clampChunk maxChars) (pyStrip (normalizeCRLF text))
          ((pyStrip (normalizeCRLF text)).length + 1) hs hmc (by omega)
      unfold splitPieces at h
      rw [hq] at h
      cases q with
      | nil => exact hqne rfl
      | cons qc qt =>
        have hhead : pySpace qc = false := by
          have hx := pyStrip_head_false (normalizeCRLF text) hs
          have : qc = (pyStrip (normalizeCRLF text)).headD ' ' := hqh
          rw [← this] at hx
          exact hx
        have hstrip : pyStrip (qc :: qt) ≠ [] := pyStrip_cons_ne qc qt hhead
        have hchunk : chunkOf (qc :: qt) = some (pyStrip (qc :: qt)) := by
          unfold chunkOf
          rw [if_neg hstrip]
        rw [List.filterMap_cons, hchunk] at h
        cases h
    · intro h
      exfalso
      apply hs
      rw [pyStrip_nil_iff, normalizeCRLF_all_space]
      exact h

/-- Claim C8 counterexample: with maxChars = 300 the threshold
int(300 * 0.55) is 165, and a window whose only sentence terminator
sits exactly at position 165 is NOT cut right after it: the backward
scan of the source excludes its range stop, so the segmenter falls
through to the hard cut at 300 and the first chunk has length 300, not
the 166 the claim predicts. -/
theorem C8_counterexample :
    (smart_split_text ex8 300).map List.length = [300, 66]
  ∧ sentenceBreak (ex8.getD 165 ' ') = true
  ∧ 300 * 55 / 100 = 165
  ∧ (smart_split_text ex8 300).headD [] ≠ List.replicate 165 'a' ++ ['.'] := by
  refine ⟨?_, ?_, ?_, ?_⟩ <;> decide

/-- Claim C8 amended: in segmentation step 3 (no qualifying newline in
the window), the cut is placed right after the last sentence
terminator found at a position STRICTLY greater than
floor(0.55 * maxChars); a terminator at exactly floor(0.55 * maxChars)
does not qualify. -/
theorem C8_amended (w : List Char) (mc k : Nat)
    (hnl : nlCut w mc = none)
    (hk : k < w.length)
    (hb : sentenceBreak (w.getD k ' ') = true)
    (hthr : mc * 55 / 100 < k)
    (hmax : ∀ j, j < w.length → k < j → sentenceBreak (w.getD j ' ') = false) :
    findCut w mc = k + 1 := by
  have hscan : scanBack w (mc * 55 / 100) (w.length - 1) = some k := by
    apply scanBack_finds w (mc * 55 / 100) k hthr hb (w.length - 1) (by omega)
    intro m hm1 hm2
    exact hmax m (by omega) hm1
  unfold findCut chooseBreak termCut
  simp only [hnl, hscan]
  rfl

/-- Claim C8 amended, witnessed: a 300-character window whose only
terminator sits at position 166 = floor(0.55 * 300) + 1 is cut right
after it. -/
theorem C8_amended_witness : findCut w8 300 = 167 :=
  C8_amended w8 300 166 (by decide) (by decide) (by decide) (by decide)
    (by decide)

/-- Claim C2, witnessed at a concrete window with no break point: the
hard cut at the full window length is taken. -/
theorem C2_witness : findCut (List.replicate 300 'a') (clampChunk 1100) = 300 := by
  have h := (C2_bounds_and_hard_cut exTextOi 1100).2.2.2
    (List.replicate 300 'a') (by decide)
  simpa using h

/-- Claim C10, witnessed: a whitespace-only text yields no chunks and a
non-blank text yields at least one. -/
theorem C10_witness :
    smart_split_text [' ', '\t'] 500 = []
  ∧ smart_split_text exTextOi 500 ≠ [] := by
  constructor
  · exact (C10_empty_iff [' ', '\t'] 500).mpr (by decide)
  · intro h
    have hx := (C10_empty_iff exTextOi 500).mp h
    exact absurd hx (by decide)

/-! ## Lemmas about sanitize_filename -/

theorem collapseWsGo_mem :
    ∀ (l : List Char) (b : Bool) (c : Char), c ∈ collapseWsGo b l → c = ' ' ∨ c ∈ l := by
  intro l
  induction l with
  | nil => intro b c h; simp [collapseWsGo] at h
  | cons x t ih =>
    intro b c h
    unfold collapseWsGo at h
    by_cases hx : pySpace x = true
    · rw [if_pos hx] at h
      cases b with
      | true =>
        simp only [if_true] at h
        rcases ih true c h with h | h
        · exact Or.inl h
        · exact Or.inr (List.mem_cons_of_mem x h)
      | false =>
        simp only [Bool.false_eq_true, if_false] at h
        rcases List.mem_cons.mp h with h | h
        · exact Or.inl h
        · rcases ih true c h with h | h
          · exact Or.inl h
          · exact Or.inr (List.mem_cons_of_mem x h)
    · rw [if_neg hx] at h
      rcases List.mem_cons.mp h with h | h
      · exact Or.inr (by simp [h])
      · rcases ih false c h with h | h
        · exact Or.inl h
        · exact Or.inr (List.mem_cons_of_mem x h)

theorem replaceForbidden_not_forbidden (l : List Char) (c : Char)
    (h : c ∈ replaceForbidden l) : forbiddenChar c = false := by
  unfold replaceForbidden at h
  obtain ⟨a, _, ha⟩ := List.mem_map.mp h
  by_cases hf : forbiddenChar a = true
  · rw [if_pos hf] at ha
    rw [← ha]
    rfl
  · rw [if_neg hf] at ha
    rw [← ha]
    exact Bool.eq_false_iff.mpr hf

theorem audio_not_forbidden (c : Char) (h : c ∈ audioStr) :
    forbiddenChar c = false := by
  unfold audioStr at h
  simp only [List.mem_cons, List.not_mem_nil, or_false] at h
  rcases h with h | h | h | h | h <;> subst h <;> rfl

theorem sanitize_mem_not_forbidden (name : List Char) (c : Char)
    (h : c ∈ sanitize_filename name 120) : forbiddenChar c = false := by
  unfold sanitize_filename at h
  have h5 : c ∈ (if stripSpaceDot (collapseWs (replaceForbidden (pyStrip name))) = []
      then audioStr
      else stripSpaceDot (collapseWs (replaceForbidden (pyStrip name)))) :=
    (List.take_sublist _ _).subset h
  by_cases h4 : stripSpaceDot (collapseWs (replaceForbidden (pyStrip name))) = []
  · rw [if_pos h4] at h5
    exact audio_not_forbidden c h5
  · rw [if_neg h4] at h5
    have h3 : c ∈ collapseWs (replaceForbidden (pyStrip name)) := by
      unfold stripSpaceDot at h5
      have hm := rstripP_mem spaceDot _ c h5
      exact (List.dropWhile_sublist _).subset hm
    rcases collapseWsGo_mem _ false c h3 with hsp | h2
    · rw [hsp]
      rfl
    · exact replaceForbidden_not_forbidden _ c h2

theorem headD_take120 (c : Char) (t : List Char) :
    ((c :: t).take 120).headD 'a' = c := rfl

theorem sanitize_ne_nil (name : List Char) :
    0 < (sanitize_filename name 120).length := by
  simp only [sanitize_filename]
  by_cases h4 : stripSpaceDot (collapseWs (replaceForbidden (pyStrip name))) = []
  · rw [if_pos h4]
    decide
  · rw [if_neg h4]
    rw [List.length_take]
    have := List.length_pos.mpr h4
    omega

theorem strip_head_false (p : Char → Bool) (s : List Char)
    (h : rstripP p (s.dropWhile p) ≠ []) :
    p ((rstripP p (s.dropWhile p)).headD ' ') = false := by
  cases hu : s.dropWhile p with
  | nil =>
    rw [hu] at h
    exact absurd rfl h
  | cons c t =>
    have hne : s.dropWhile p ≠ [] := by rw [hu]; simp
    have hc : p c = false := by
      have hx := dropWhile_head_false p s hne
      rw [hu] at hx
      simpa using hx
    obtain ⟨r, hr⟩ := rstripP_head p c t hc
    rw [hr]
    exact hc

theorem sanitize_head_ok (name : List Char) :
    spaceDot ((sanitize_filename name 120).headD 'a') = false := by
  simp only [sanitize_filename]
  by_cases h4 : stripSpaceDot (collapseWs (replaceForbidden (pyStrip name))) = []
  · rw [if_pos h4]
    rfl
  · rw [if_neg h4]
    cases hn : stripSpaceDot (collapseWs (replaceForbidden (pyStrip name))) with
    | nil => exact absurd hn h4
    | cons c t =>
      rw [headD_take120]
      have hx := strip_head_false spaceDot (collapseWs (replaceForbidden (pyStrip name)))
        (by unfold stripSpaceDot at h4; exact h4)
      unfold stripSpaceDot at hn
      rw [hn] at hx
      simpa using hx

/-! ## Claim about sanitize_filename -/

/-- Claim C9: the render output name is derived by sanitizing the first
non-empty line of the input text; sanitization replaces each of the
nine forbidden characters with an underscore, collapses whitespace
runs, trims leading and trailing spaces and dots, truncates to 120 and
defaults to a generic name when empty.  Concretely, the sample of the
spec maps colon, slash and question mark to underscores with no
leading or trailing space or dot; and in general the sanitized name
never contains a forbidden character, is never empty and never starts
with a space or a dot. -/
theorem C9_sanitization (name : List Char) :
    sanitize_filename relatorioStr 120 = relatorioClean
  ∧ genBaseName text9 = relatorioClean
  ∧ (sanitize_filename name 120).all (fun c => !forbiddenChar c) = true
  ∧ 0 < (sanitize_filename name 120).length
  ∧ spaceDot ((sanitize_filename name 120).headD 'a') = false := by
  refine ⟨by decide, by decide, ?_, sanitize_ne_nil name, sanitize_head_ok name⟩
  rw [List.all_eq_true]
  intro c hc
  rw [sanitize_mem_not_forbidden name c hc]
  rfl

/-! ## Lemmas about the controller -/

theorem pause_job_isBusy (st : CtrlState) : (pause_job st).isBusy = st.isBusy := by
  unfold pause_job
  split
  · rfl
  · split
    · rfl
    · rfl

theorem pause_job_stopSet (st : CtrlState) : (pause_job st).stopSet = st.stopSet := by
  unfold pause_job
  split
  · rfl
  · split
    · rfl
    · rfl

theorem pause_job_restart (st : CtrlState) :
    (pause_job st).restartAfterStop = st.restartAfterStop := by
  unfold pause_job
  split
  · rfl
  · split
    · rfl
    · rfl

theorem pause_job_cfg (st : CtrlState) : (pause_job st).cfg = st.cfg := by
  unfold pause_job
  split
  · rfl
  · split
    · rfl
    · rfl

theorem pause_job_currentJob (st : CtrlState) :
    (pause_job st).currentJob = st.currentJob := by
  unfold pause_job
  split
  · rfl
  · split
    · rfl
    · rfl

theorem stop_job_busy_eq (st : CtrlState) (hb : st.isBusy = true) :
    stop_job st =
      { st with restartAfterStop := true, stopSet := true, pauseOpen := true } := by
  unfold stop_job
  rw [if_neg (by simp [hb])]

theorem applyActs_inv :
    ∀ (acts : List UiAct) (st : CtrlState),
      st.isBusy = true →
      st.restartAfterStop = st.stopSet →
      (applyActs st acts).isBusy = true
    ∧ (applyActs st acts).cfg = st.cfg
    ∧ (applyActs st acts).currentJob = st.currentJob
    ∧ (applyActs st acts).restartAfterStop = (applyActs st acts).stopSet := by
  intro acts
  induction acts with
  | nil => intro st h1 h2; exact ⟨h1, rfl, rfl, h2⟩
  | cons a rest ih =>
    intro st h1 h2
    cases a with
    | pausePress =>
      have hstep : applyActs st (UiAct.pausePress :: rest) =
          applyActs (pause_job st) rest := rfl
      rw [hstep]
      obtain ⟨hb, hc, hj, he⟩ := ih (pause_job st)
        (by rw [pause_job_isBusy, h1])
        (by rw [pause_job_restart, pause_job_stopSet]; exact h2)
      exact ⟨hb, by rw [hc, pause_job_cfg], by rw [hj, pause_job_currentJob], he⟩
    | stopPress =>
      have hstep : applyActs st (UiAct.stopPress :: rest) =
          applyActs (stop_job st) rest := rfl
      rw [hstep, stop_job_busy_eq st h1]
      exact ih _ h1 rfl

theorem end_job_cleanup_fields (st : CtrlState) :
    (end_job_cleanup st).1.pauseOpen = true
  ∧ (end_job_cleanup st).1.stopSet = false
  ∧ (end_job_cleanup st).1.currentJob = JobKind.idle
  ∧ (end_job_cleanup st).1.isBusy = st.isBusy
  ∧ (end_job_cleanup st).2 = st.restartAfterStop := by
  unfold end_job_cleanup reset_job_flags
  dsimp only
  split
  · rename_i h
    exact ⟨rfl, rfl, rfl, rfl, h.symm⟩
  · rename_i h
    refine ⟨rfl, rfl, rfl, rfl, ?_⟩
    cases hr : st.restartAfterStop with
    | false => rfl
    | true => exact absurd hr h

theorem monoBnd_anti (lo1 lo2 hi : Nat) (hlo : lo1 ≤ lo2) :
    ∀ l, monoBnd lo2 hi l = true → monoBnd lo1 hi l = true := by
  intro l
  cases l with
  | nil => intro _; rfl
  | cons p rest =>
    intro hm
    simp only [monoBnd, Bool.and_eq_true, decide_eq_true_eq] at hm ⊢
    exact ⟨⟨by omega, hm.1.2⟩, hm.2⟩

theorem monoBnd_append_hi (hi : Nat) :
    ∀ (l : List Nat) (lo : Nat), lo ≤ hi → monoBnd lo hi l = true →
      monoBnd lo hi (l ++ [hi]) = true := by
  intro l
  induction l with
  | nil =>
    intro lo hlo _
    simp only [List.nil_append, monoBnd, Bool.and_eq_true, decide_eq_true_eq]
    exact ⟨⟨hlo, le_refl hi⟩, trivial⟩
  | cons p rest ih =>
    intro lo hlo hm
    simp only [monoBnd, Bool.and_eq_true, decide_eq_true_eq] at hm
    simp only [List.cons_append, monoBnd, Bool.and_eq_true, decide_eq_true_eq]
    exact ⟨hm.1, ih p hm.1.2 hm.2⟩

theorem monoBnd_all_le (hi : Nat) :
    ∀ (l : List Nat) (lo : Nat), monoBnd lo hi l = true → ∀ p ∈ l, p ≤ hi := by
  intro l
  induction l with
  | nil => intro lo _ p hp; simp at hp
  | cons q rest ih =>
    intro lo hm p hp
    simp only [monoBnd, Bool.and_eq_true, decide_eq_true_eq] at hm
    rcases List.mem_cons.mp hp with h | h
    · rw [h]; exact hm.1.2
    · exact ih q hm.2 p h

theorem monoBnd_nondec (hi : Nat) :
    ∀ (l : List Nat) (lo : Nat), monoBnd lo hi l = true → nondecB l = true := by
  intro l
  induction l with
  | nil => intro lo _; rfl
  | cons p rest ih =>
    intro lo hm
    simp only [monoBnd, Bool.and_eq_true, decide_eq_true_eq] at hm
    cases rest with
    | nil => rfl
    | cons q t =>
      simp only [monoBnd, Bool.and_eq_true, decide_eq_true_eq] at hm
      simp only [nondecB, Bool.and_eq_true, decide_eq_true_eq]
      constructor
      · exact hm.2.1.1
      · apply ih p
        simp only [monoBnd, Bool.and_eq_true, decide_eq_true_eq]
        exact hm.2
    
theorem pct_le_hi (idx total m : Nat) (ht : 1 ≤ total) (h : idx ≤ total) :
    idx * m / total ≤ m := by
  have h1 : idx * m ≤ total * m := Nat.mul_le_mul_right m h
  have h2 : idx * m / total ≤ total * m / total := Nat.div_le_div_right h1
  rwa [Nat.mul_div_cancel_left m (by omega : 0 < total)] at h2

theorem pct_mono (idx m total : Nat) : idx * m / total ≤ (idx + 1) * m / total :=
  Nat.div_le_div_right (Nat.mul_le_mul_right m (by omega))

theorem readLoop_spec (total : Nat) :
    ∀ (chunks : List (List Char)) (idx : Nat) (sched : List (List UiAct))
      (st : CtrlState) (evs : List Ev) (st2 : CtrlState),
      readLoop total idx sched chunks st = some (evs, st2) →
      st.isBusy = true → st.stopSet = false → st.restartAfterStop = false →
      1 ≤ total → idx + chunks.length ≤ total + 1 →
      (st2.isBusy = true ∧ st2.cfg = st.cfg ∧ st2.currentJob = st.currentJob)
    ∧ st2.restartAfterStop = st2.stopSet
    ∧ countReinit evs = 0
    ∧ monoBnd (idx * 100 / total) 100 (progressList evs) = true := by
  intro chunks
  induction chunks with
  | nil =>
    intro idx sched st evs st2 h hb hs hr ht hlen
    simp only [readLoop] at h
    cases h
    exact ⟨⟨hb, rfl, rfl⟩, by rw [hr, hs], rfl, rfl⟩
  | cons chunk rest ih =>
    intro idx sched st evs st2 h hb hs hr ht hlen
    simp only [readLoop] at h
    obtain ⟨hb1, hc1, hj1, he1⟩ := applyActs_inv (sched.headD []) st hb (by rw [hr, hs])
    by_cases hstop : (applyActs st (sched.headD [])).stopSet = true
    · rw [if_pos hstop] at h
      cases h
      exact ⟨⟨hb1, hc1, hj1⟩, he1, rfl, rfl⟩
    · rw [if_neg hstop] at h
      have hs1 : (applyActs st (sched.headD [])).stopSet = false :=
        Bool.eq_false_iff.mpr hstop
      by_cases hpo : (applyActs st (sched.headD [])).pauseOpen = false
      · rw [if_pos hpo] at h
        exact Option.noConfusion h
      · rw [if_neg hpo] at h
        cases hrec : readLoop total (idx + 1) sched.tail rest
            (applyActs st (sched.headD [])) with
        | none =>
          simp only [hrec] at h
          exact Option.noConfusion h
        | some pr =>
          obtain ⟨evs', st2'⟩ := pr
          simp only [hrec] at h
          cases h
          have hr1 : (applyActs st (sched.headD [])).restartAfterStop = false := by
            rw [he1, hs1]
          obtain ⟨⟨hb2, hc2, hj2⟩, he2, hcnt, hmono⟩ :=
            ih (idx + 1) sched.tail (applyActs st (sched.headD [])) evs' st2 hrec
              hb1 hs1 hr1 ht (by simp only [List.length_cons] at hlen; omega)
          refine ⟨⟨hb2, hc2.trans hc1, hj2.trans hj1⟩, he2, hcnt, ?_⟩
          show monoBnd (idx * 100 / total) 100
            (idx * 100 / total :: progressList evs') = true
          simp only [monoBnd, Bool.and_eq_true, decide_eq_true_eq]
          have hidx : idx ≤ total := by
            simp only [List.length_cons] at hlen
            omega
          refine ⟨⟨le_refl _, pct_le_hi idx total 100 ht hidx⟩, ?_⟩
          exact monoBnd_anti _ _ _ (pct_mono idx 100 total) _ hmono

theorem genLoop_spec (total : Nat) (useEdge : Bool) :
    ∀ (chunks : List (List Char)) (idx : Nat) (sched : List (List UiAct))
      (st : CtrlState) (evs : List Ev) (st2 : CtrlState),
      genLoop total useEdge idx sched chunks st = some (evs, st2) →
      st.isBusy = true → st.stopSet = false → st.restartAfterStop = false →
      1 ≤ total → idx + chunks.length ≤ total + 1 →
      (st2.isBusy = true ∧ st2.cfg = st.cfg ∧ st2.currentJob = st.currentJob)
    ∧ st2.restartAfterStop = st2.stopSet
    ∧ countReinit evs = 0
    ∧ monoBnd (idx * 95 / total) 95 (progressList evs) = true
    ∧ (useEdge = false → countEdgeSynth evs = 0) := by
  intro chunks
  induction chunks with
  | nil =>
    intro idx sched st evs st2 h hb hs hr ht hlen
    simp only [genLoop] at h
    cases h
    exact ⟨⟨hb, rfl, rfl⟩, by rw [hr, hs], rfl, rfl, fun _ => rfl⟩
  | cons chunk rest ih =>
    intro idx sched st evs st2 h hb hs hr ht hlen
    simp only [genLoop] at h
    obtain ⟨hb1, hc1, hj1, he1⟩ := applyActs_inv (sched.headD []) st hb (by rw [hr, hs])
    by_cases hstop : (applyActs st (sched.headD [])).stopSet = true
    · rw [if_pos hstop] at h
      cases h
      exact ⟨⟨hb1, hc1, hj1⟩, he1, rfl, rfl, fun _ => rfl⟩
    · rw [if_neg hstop] at h
      have hs1 : (applyActs st (sched.headD [])).stopSet = false :=
        Bool.eq_false_iff.mpr hstop
      by_cases hpo : (applyActs st (sched.headD [])).pauseOpen = false
      · rw [if_pos hpo] at h
        exact Option.noConfusion h
      · rw [if_neg hpo] at h
        cases hrec : genLoop total useEdge (idx + 1) sched.tail rest
            (applyActs st (sched.headD [])) with
        | none =>
          simp only [hrec] at h
          exact Option.noConfusion h
        | some pr =>
          obtain ⟨evs', st2'⟩ := pr
          simp only [hrec] at h
          cases h
          have hr1 : (applyActs st (sched.headD [])).restartAfterStop = false := by
            rw [he1, hs1]
          obtain ⟨⟨hb2, hc2, hj2⟩, he2, hcnt, hmono, hedge⟩ :=
            ih (idx + 1) sched.tail (applyActs st (sched.headD [])) evs' st2 hrec
              hb1 hs1 hr1 ht (by simp only [List.length_cons] at hlen; omega)
          refine ⟨⟨hb2, hc2.trans hc1, hj2.trans hj1⟩, he2, ?_, ?_, ?_⟩
          · cases useEdge with
            | true => exact hcnt
            | false => exact hcnt
          · have hpl : progressList
                (Ev.progress (idx * 95 / total) ::
                  (if useEdge then Ev.synthEdge chunk else Ev.synthGtts chunk) :: evs')
                = idx * 95 / total :: progressList evs' := by
              cases useEdge
              · rfl
              · rfl
            rw [hpl]
            simp only [monoBnd, Bool.and_eq_true, decide_eq_true_eq]
            have hidx : idx ≤ total := by
              simp only [List.length_cons] at hlen
              omega
            refine ⟨⟨le_refl _, pct_le_hi idx total 95 ht hidx⟩, ?_⟩
            exact monoBnd_anti _ _ _ (pct_mono idx 95 total) _ hmono
          · intro hue
            rw [hue]
            exact hedge hue

theorem countReinit_append :
    ∀ l1 l2 : List Ev, countReinit (l1 ++ l2) = countReinit l1 + countReinit l2 := by
  intro l1 l2
  induction l1 with
  | nil => simp [countReinit]
  | cons e t ih =>
    cases e with
    | reinit =>
      show countReinit (t ++ l2) + 1 = countReinit t + 1 + countReinit l2
      omega
    | progress p => exact ih
    | sayChunk c => exact ih
    | synthEdge c => exact ih
    | synthGtts c => exact ih
    | concatFfmpeg => exact ih
    | concatNaive => exact ih

theorem countEdgeSynth_append :
    ∀ l1 l2 : List Ev, countEdgeSynth (l1 ++ l2) = countEdgeSynth l1 + countEdgeSynth l2 := by
  intro l1 l2
  induction l1 with
  | nil => simp [countEdgeSynth]
  | cons e t ih =>
    cases e with
    | synthEdge c =>
      show countEdgeSynth (t ++ l2) + 1 = countEdgeSynth t + 1 + countEdgeSynth l2
      omega
    | progress p => exact ih
    | sayChunk c => exact ih
    | reinit => exact ih
    | synthGtts c => exact ih
    | concatFfmpeg => exact ih
    | concatNaive => exact ih

theorem progressList_append :
    ∀ l1 l2 : List Ev, progressList (l1 ++ l2) = progressList l1 ++ progressList l2 := by
  intro l1 l2
  induction l1 with
  | nil => simp [progressList]
  | cons e t ih =>
    cases e with
    | progress p =>
      show p :: progressList (t ++ l2) = p :: progressList t ++ progressList l2
      rw [ih]
      rfl
    | sayChunk c => exact ih
    | reinit => exact ih
    | synthEdge c => exact ih
    | synthGtts c => exact ih
    | concatFfmpeg => exact ih
    | concatNaive => exact ih

theorem contains_false_of_not_mem (l : List Nat) (n : Nat) (h : ¬ n ∈ l) :
    l.contains n = false := by
  cases hc : l.contains n
  · rfl
  · exact absurd (List.mem_of_elem_eq_true hc) h

theorem contains_true_of_mem (l : List Nat) (n : Nat) (h : n ∈ l) :
    l.contains n = true :=
  List.elem_eq_true_of_mem h

theorem read_run_master (cfg : AppConfig) (text : List Char)
    (sched : List (List UiAct)) (fin : List UiAct) (r : RunResult)
    (h : read_now_run (idleState cfg) text sched fin = RunOut.finished r) :
    ((r.outcome = JobOutcome.cancelled ∧ countReinit r.events = 1)
      ∨ (r.outcome = JobOutcome.completed ∧ countReinit r.events = 0
          ∧ (progressList r.events).contains 100 = true))
  ∧ monoBnd 0 100 (progressList r.events) = true := by
  simp only [read_now_run] at h
  split at h
  · exact RunOut.noConfusion h
  · split at h
    · exact RunOut.noConfusion h
    · split at h
      · exact RunOut.noConfusion h
      · rename_i pr evs st2 hloop
        obtain ⟨⟨hb2, hc2, hj2⟩, he2, hcnt, hmono⟩ :=
          readLoop_spec _ _ 1 sched _ evs st2 hloop rfl rfl rfl
            (Nat.le_max_left 1 _)
            (by rw [Nat.add_comm]; exact Nat.add_le_add_right (Nat.le_max_right 1 _) 1)
        obtain ⟨hb3, hc3, hj3, he3⟩ := applyActs_inv fin st2 hb2 he2
        split at h
        · rename_i hstop
          cases h
          have hp2 : (end_job_cleanup
              { applyActs st2 fin with isBusy := false }).2 = true := by
            rw [(end_job_cleanup_fields _).2.2.2.2]
            show (applyActs st2 fin).restartAfterStop = true
            rw [he3, hstop]
          constructor
          · left
            refine ⟨rfl, ?_⟩
            show countReinit (Ev.progress 0 :: evs ++
              (if (end_job_cleanup { applyActs st2 fin with isBusy := false }).2
                then [Ev.reinit] else [])) = 1
            rw [hp2, if_pos rfl]
            show countReinit (evs ++ [Ev.reinit]) = 1
            rw [countReinit_append, hcnt]
            rfl
          · show monoBnd 0 100 (progressList (Ev.progress 0 :: evs ++
              (if (end_job_cleanup { applyActs st2 fin with isBusy := false }).2
                then [Ev.reinit] else []))) = true
            rw [hp2, if_pos rfl]
            show monoBnd 0 100 (0 :: progressList (evs ++ [Ev.reinit])) = true
            rw [progressList_append]
            show monoBnd 0 100 (0 :: (progressList evs ++ [])) = true
            rw [List.append_nil]
            simp only [monoBnd, Bool.and_eq_true, decide_eq_true_eq]
            refine ⟨⟨le_refl 0, by omega⟩, ?_⟩
            exact monoBnd_anti 0 _ 100 (Nat.zero_le _) _ hmono
        · rename_i hstop
          cases h
          have hsf : (applyActs st2 fin).stopSet = false :=
            Bool.eq_false_iff.mpr hstop
          have hp2 : (end_job_cleanup
              { applyActs st2 fin with isBusy := false }).2 = false := by
            rw [(end_job_cleanup_fields _).2.2.2.2]
            show (applyActs st2 fin).restartAfterStop = false
            rw [he3, hsf]
          constructor
          · right
            refine ⟨rfl, ?_, ?_⟩
            · show countReinit (Ev.progress 0 :: evs ++ [Ev.progress 100] ++
                (if (end_job_cleanup { applyActs st2 fin with isBusy := false }).2
                  then [Ev.reinit] else [])) = 0
              rw [hp2]
              show countReinit ((evs ++ [Ev.progress 100]) ++ []) = 0
              rw [List.append_nil, countReinit_append, hcnt]
              rfl
            · show (progressList (Ev.progress 0 :: evs ++ [Ev.progress 100] ++
                (if (end_job_cleanup { applyActs st2 fin with isBusy := false }).2
                  then [Ev.reinit] else []))).contains 100 = true
              rw [hp2]
              apply contains_true_of_mem
              show 100 ∈ progressList ((Ev.progress 0 :: (evs ++ [Ev.progress 100]) ++ []))
              rw [List.append_nil]
              show 100 ∈ 0 :: progressList (evs ++ [Ev.progress 100])
              rw [progressList_append]
              apply List.mem_cons_of_mem
              apply List.mem_append_right
              simp [progressList]
          · show monoBnd 0 100 (progressList (Ev.progress 0 :: evs ++ [Ev.progress 100] ++
              (if (end_job_cleanup { applyActs st2 fin with isBusy := false }).2
                then [Ev.reinit] else []))) = true
            rw [hp2]
            show monoBnd 0 100 (0 :: progressList ((evs ++ [Ev.progress 100]) ++ [])) = true
            rw [List.append_nil, progressList_append]
            show monoBnd 0 100 (0 :: (progressList evs ++ [100])) = true
            simp only [monoBnd, Bool.and_eq_true, decide_eq_true_eq]
            refine ⟨⟨le_refl 0, by omega⟩, ?_⟩
            apply monoBnd_append_hi
            · omega
            · exact monoBnd_anti 0 _ 100 (Nat.zero_le _) _ hmono

theorem monoBnd_hi_mono (hi hi2 : Nat) (hh : hi ≤ hi2) :
    ∀ (l : List Nat) (lo : Nat), monoBnd lo hi l = true → monoBnd lo hi2 l = true := by
  intro l
  induction l with
  | nil => intro lo _; rfl
  | cons p rest ih =>
    intro lo hm
    simp only [monoBnd, Bool.and_eq_true, decide_eq_true_eq] at hm ⊢
    exact ⟨⟨hm.1.1, by omega⟩, ih p hm.2⟩

theorem monoBnd_append (hi : Nat) :
    ∀ (l1 l2 : List Nat) (lo mid : Nat), lo ≤ mid → mid ≤ hi →
      monoBnd lo mid l1 = true → monoBnd mid hi l2 = true →
      monoBnd lo hi (l1 ++ l2) = true := by
  intro l1
  induction l1 with
  | nil =>
    intro l2 lo mid hlm hmh h1 h2
    exact monoBnd_anti lo mid hi hlm l2 h2
  | cons p rest ih =>
    intro l2 lo mid hlm hmh h1 h2
    simp only [monoBnd, Bool.and_eq_true, decide_eq_true_eq] at h1
    simp only [List.cons_append, monoBnd, Bool.and_eq_true, decide_eq_true_eq]
    exact ⟨⟨h1.1.1, by omega⟩, ih l2 p mid h1.1.2 hmh h1.2 h2⟩

theorem gen_run_master (cfg : AppConfig) (text : List Char)
    (sched : List (List UiAct)) (ea ff cf : Bool) (r : RunResult)
    (h : generate_mp3_run (idleState cfg) text sched ea ff cf = RunOut.finished r) :
    ((r.outcome = JobOutcome.cancelled ∧ countReinit r.events = 1
        ∧ (progressList r.events).contains 100 = false)
      ∨ (r.outcome = JobOutcome.failed ∧ countReinit r.events = 0
        ∧ (progressList r.events).contains 100 = false)
      ∨ (r.outcome = JobOutcome.completed ∧ countReinit r.events = 1))
  ∧ monoBnd 0 100 (progressList r.events) = true := by
  simp only [generate_mp3_run] at h
  split at h
  · exact RunOut.noConfusion h
  · split at h
    · exact RunOut.noConfusion h
    · split at h
      · exact RunOut.noConfusion h
      · split at h
        · exact RunOut.noConfusion h
        · rename_i pr evs st2 hloop
          obtain ⟨⟨hb2, hc2, hj2⟩, he2, hcnt, hmono, _⟩ :=
            genLoop_spec _ _ _ 1 sched _ evs st2 hloop rfl rfl rfl
              (Nat.le_max_left 1 _)
              (by rw [Nat.add_comm]; exact Nat.add_le_add_right (Nat.le_max_right 1 _) 1)
          have hm95 : monoBnd 0 95 (progressList evs) = true :=
            monoBnd_anti 0 _ 95 (Nat.zero_le _) _ hmono
          have hle95 : ∀ p ∈ progressList evs, p ≤ 95 :=
            monoBnd_all_le 95 _ _ hm95
          split at h
          · rename_i hstop
            cases h
            have hp2 : (end_job_cleanup { st2 with isBusy := false }).2 = true := by
              rw [(end_job_cleanup_fields _).2.2.2.2]
              show st2.restartAfterStop = true
              rw [he2, hstop]
            refine ⟨Or.inl ⟨rfl, ?_, ?_⟩, ?_⟩
            · show countReinit (Ev.progress 0 :: evs ++
                (if (end_job_cleanup { st2 with isBusy := false }).2
                  then [Ev.reinit] else [])) = 1
              rw [hp2, if_pos rfl]
              show countReinit (evs ++ [Ev.reinit]) = 1
              rw [countReinit_append, hcnt]
              rfl
            · show (progressList (Ev.progress 0 :: evs ++
                (if (end_job_cleanup { st2 with isBusy := false }).2
                  then [Ev.reinit] else []))).contains 100 = false
              rw [hp2, if_pos rfl]
              apply contains_false_of_not_mem
              show ¬ (100 : Nat) ∈ 0 :: progressList (evs ++ [Ev.reinit])
              rw [progressList_append]
              intro hmem
              rcases List.mem_cons.mp hmem with h0 | h0
              · exact absurd h0 (by decide)
              · rcases List.mem_append.mp h0 with h1 | h1
                · have := hle95 100 h1
                  omega
                · simp [progressList] at h1
            · show monoBnd 0 100 (progressList (Ev.progress 0 :: evs ++
                (if (end_job_cleanup { st2 with isBusy := false }).2
                  then [Ev.reinit] else []))) = true
              rw [hp2, if_pos rfl]
              show monoBnd 0 100 (0 :: progressList (evs ++ [Ev.reinit])) = true
              rw [progressList_append, show progressList [Ev.reinit] = [] from rfl,
                List.append_nil]
              simp only [monoBnd, Bool.and_eq_true, decide_eq_true_eq]
              exact ⟨⟨le_refl 0, by omega⟩, monoBnd_hi_mono 95 100 (by omega) _ 0 hm95⟩
          · rename_i hstop
            have hsf : st2.stopSet = false := Bool.eq_false_iff.mpr hstop
            have hp2 : (end_job_cleanup { st2 with isBusy := false }).2 = false := by
              rw [(end_job_cleanup_fields _).2.2.2.2]
              show st2.restartAfterStop = false
              rw [he2, hsf]
            split at h
            · cases h
              refine ⟨Or.inr (Or.inl ⟨rfl, ?_, ?_⟩), ?_⟩
              · show countReinit (Ev.progress 0 :: evs ++ [Ev.progress 95, Ev.concatFfmpeg] ++
                  (if (end_job_cleanup { st2 with isBusy := false }).2
                    then [Ev.reinit] else [])) = 0
                rw [hp2]
                show countReinit ((evs ++ [Ev.progress 95, Ev.concatFfmpeg]) ++ []) = 0
                rw [List.append_nil, countReinit_append, hcnt]
                rfl
              · show (progressList (Ev.progress 0 :: evs ++ [Ev.progress 95, Ev.concatFfmpeg] ++
                  (if (end_job_cleanup { st2 with isBusy := false }).2
                    then [Ev.reinit] else []))).contains 100 = false
                rw [hp2]
                apply contains_false_of_not_mem
                show ¬ (100 : Nat) ∈ 0 :: progressList ((evs ++ [Ev.progress 95, Ev.concatFfmpeg]) ++ [])
                rw [List.append_nil, progressList_append]
                intro hmem
                rcases List.mem_cons.mp hmem with h0 | h0
                · exact absurd h0 (by decide)
                · rcases List.mem_append.mp h0 with h1 | h1
                  · have := hle95 100 h1
                    omega
                  · have : (100 : Nat) ∈ [95] := h1
                    simp at this
              · show monoBnd 0 100 (progressList (Ev.progress 0 :: evs ++ [Ev.progress 95, Ev.concatFfmpeg] ++
                  (if (end_job_cleanup { st2 with isBusy := false }).2
                    then [Ev.reinit] else []))) = true
                rw [hp2]
                show monoBnd 0 100 (0 :: progressList ((evs ++ [Ev.progress 95, Ev.concatFfmpeg]) ++ [])) = true
                rw [List.append_nil, progressList_append]
                simp only [monoBnd, Bool.and_eq_true, decide_eq_true_eq]
                refine ⟨⟨le_refl 0, by omega⟩, ?_⟩
                exact monoBnd_append 100 _ _ 0 95 (by omega) (by omega) hm95 (by decide)
            · cases h
              refine ⟨Or.inr (Or.inr ⟨rfl, ?_⟩), ?_⟩
              · show countReinit (Ev.progress 0 :: evs ++
                  [Ev.progress 95, if ff = true then Ev.concatFfmpeg else Ev.concatNaive,
                    Ev.progress 100, Ev.reinit] ++
                  (if (end_job_cleanup { st2 with isBusy := false }).2
                    then [Ev.reinit] else [])) = 1
                rw [hp2]
                have htail : countReinit
                    [Ev.progress 95, if ff = true then Ev.concatFfmpeg else Ev.concatNaive,
                      Ev.progress 100, Ev.reinit] = 1 := by
                  cases ff
                  · rfl
                  · rfl
                show countReinit ((evs ++ _) ++ []) = 1
                rw [List.append_nil, countReinit_append, hcnt, htail]
              · show monoBnd 0 100 (progressList (Ev.progress 0 :: evs ++
                  [Ev.progress 95, if ff = true then Ev.concatFfmpeg else Ev.concatNaive,
                    Ev.progress 100, Ev.reinit] ++
                  (if (end_job_cleanup { st2 with isBusy := false }).2
                    then [Ev.reinit] else []))) = true
                rw [hp2]
                have htail : progressList
                    [Ev.progress 95, if ff = true then Ev.concatFfmpeg else Ev.concatNaive,
                      Ev.progress 100, Ev.reinit] = [95, 100] := by
                  cases ff
                  · rfl
                  · rfl
                show monoBnd 0 100 (0 :: progressList ((evs ++ _) ++ [])) = true
                rw [List.append_nil, progressList_append, htail]
                simp only [monoBnd, Bool.and_eq_true, decide_eq_true_eq]
                refine ⟨⟨le_refl 0, by omega⟩, ?_⟩
                exact monoBnd_append 100 _ _ 0 95 (by omega) (by omega) hm95 (by decide)

/-! ## Claims about the job controller -/

/-- Claim C4: starting from a quiescent controller state, a cancelled
speak job triggers exactly one offline-engine reinit, a completed speak
job none, and a render job exactly one whether cancelled or completed
(the success path schedules it explicitly, the cancellation path
through the restart-after-stop flag). -/
theorem C4_reinit_policy (cfg : AppConfig) (text : List Char)
    (sched : List (List UiAct)) (fin : List UiAct) (ea ff cf : Bool) :
    c4read (read_now_run (idleState cfg) text sched fin) = true
  ∧ c4gen (generate_mp3_run (idleState cfg) text sched ea ff cf) = true := by
  constructor
  · cases hr : read_now_run (idleState cfg) text sched fin with
    | notStarted => rfl
    | blocked => rfl
    | finished r =>
      obtain ⟨hA, _⟩ := read_run_master cfg text sched fin r hr
      rcases hA with ⟨ho, hc⟩ | ⟨ho, hc, _⟩
      · simp [c4read, ho, hc]
      · simp [c4read, ho, hc]
  · cases hg : generate_mp3_run (idleState cfg) text sched ea ff cf with
    | notStarted => rfl
    | blocked => rfl
    | finished r =>
      obtain ⟨hA, _⟩ := gen_run_master cfg text sched ea ff cf r hg
      rcases hA with ⟨ho, hc, _⟩ | ⟨ho, hc, _⟩ | ⟨ho, hc⟩
      · simp [c4gen, ho, hc]
      · simp [c4gen, ho]
      · simp [c4gen, ho, hc]

/-- Claim C5, amended: within one job from a quiescent state, the
reported progress is monotonically non-decreasing in both modes; a
render job shows 100 only when it completes; a completed speak job does
reach 100, but (per the counterexample) a speak job posts 100 already
when its final chunk starts, so a speak job cancelled during the final
chunk has shown 100 without completing. -/
theorem C5_progress_amended (cfg : AppConfig) (text : List Char)
    (sched : List (List UiAct)) (fin : List UiAct) (ea ff cf : Bool) :
    nondecB (progressOf (read_now_run (idleState cfg) text sched fin)) = true
  ∧ nondecB (progressOf (generate_mp3_run (idleState cfg) text sched ea ff cf)) = true
  ∧ gen100only (generate_mp3_run (idleState cfg) text sched ea ff cf) = true
  ∧ read100done (read_now_run (idleState cfg) text sched fin) = true := by
  refine ⟨?_, ?_, ?_, ?_⟩
  · cases hr : read_now_run (idleState cfg) text sched fin with
    | notStarted => rfl
    | blocked => rfl
    | finished r =>
      obtain ⟨_, hm⟩ := read_run_master cfg text sched fin r hr
      exact monoBnd_nondec 100 _ 0 hm
  · cases hg : generate_mp3_run (idleState cfg) text sched ea ff cf with
    | notStarted => rfl
    | blocked => rfl
    | finished r =>
      obtain ⟨_, hm⟩ := gen_run_master cfg text sched ea ff cf r hg
      exact monoBnd_nondec 100 _ 0 hm
  · cases hg : generate_mp3_run (idleState cfg) text sched ea ff cf with
    | notStarted => rfl
    | blocked => rfl
    | finished r =>
      obtain ⟨hA, _⟩ := gen_run_master cfg text sched ea ff cf r hg
      rcases hA with ⟨ho, _, hc100⟩ | ⟨ho, _, hc100⟩ | ⟨ho, _⟩
      · simp only [gen100only, Bool.or_eq_true, Bool.not_eq_true']
        left
        exact hc100
      · simp only [gen100only, Bool.or_eq_true, Bool.not_eq_true']
        left
        exact hc100
      · simp [gen100only, ho]
  · cases hr : read_now_run (idleState cfg) text sched fin with
    | notStarted => rfl
    | blocked => rfl
    | finished r =>
      obtain ⟨hA, _⟩ := read_run_master cfg text sched fin r hr
      rcases hA with ⟨ho, _⟩ | ⟨ho, _, hcont⟩
      · simp [read100done, ho]
      · simp only [read100done, Bool.or_eq_true]
        right
        exact hcont

/-- Claim C5 counterexample: a one-chunk speak job posts progress 100
before speaking its final chunk, so cancelling during that chunk ends
the job as cancelled although the bar has already reached 100 — the
original claim that 100 is reached only at or after successful
completion fails for speak mode. -/
theorem C5_counterexample :
    outcomeOf (read_now_run (idleState cfg0) exTextOi [[]] [UiAct.stopPress])
        = some JobOutcome.cancelled
  ∧ (progressOf (read_now_run (idleState cfg0) exTextOi [[]] [UiAct.stopPress])).contains 100
        = true := by
  refine ⟨?_, ?_⟩
  · decide
  · decide

theorem cleanedUp_finished (events : List Ev) (X : CtrlState) (oc : JobOutcome)
    (ws : List Warning) (hb : X.isBusy = false) :
    cleanedUp (RunOut.finished
      { events := events, final := (end_job_cleanup X).1,
        outcome := oc, warnings := ws }) = true := by
  obtain ⟨h1, h2, h3, h4, _⟩ := end_job_cleanup_fields X
  unfold cleanedUp
  dsimp only
  rw [h1, h2, h3, h4, hb]
  rfl

/-- Claim C6: whatever the starting state, the schedule and the
outcome, a finished job always ran the terminal cleanup: the pause gate
is open, the cancellation flag is clear, and the controller is idle and
not busy. -/
theorem C6_terminal_cleanup (st0 : CtrlState) (text : List Char)
    (sched : List (List UiAct)) (fin : List UiAct) (ea ff cf : Bool) :
    cleanedUp (read_now_run st0 text sched fin) = true
  ∧ cleanedUp (generate_mp3_run st0 text sched ea ff cf) = true := by
  constructor
  · simp only [read_now_run]
    split
    · rfl
    · split
      · rfl
      · split
        · rfl
        · split
          · exact cleanedUp_finished _ _ _ _ rfl
          · exact cleanedUp_finished _ _ _ _ rfl
  · simp only [generate_mp3_run]
    split
    · rfl
    · split
      · rfl
      · split
        · rfl
        · split
          · rfl
          · split
            · exact cleanedUp_finished _ _ _ _ rfl
            · split
              · exact cleanedUp_finished _ _ _ _ rfl
              · exact cleanedUp_finished _ _ _ _ rfl

/-- Claim C3 counterexample: a commit attempted while a job runs is a
bare early return: no error dialog is shown, no InvalidState or
ValidationError is produced, and the controller state (in particular
the applied configuration) is bit-for-bit unchanged — so the claim
that the commit is rejected WITH an error does not hold. -/
theorem C3_counterexample :
    showsError (save_and_apply_config busySt draft0 true).2 = false
  ∧ (save_and_apply_config busySt draft0 true).2 = CommitOutcome.busyNoop
  ∧ (save_and_apply_config busySt draft0 true).1 = busySt := by
  refine ⟨?_, ?_, ?_⟩ <;> decide

/-- Claim C3 amended: a commit attempted while a job is running is
silently ignored — the call returns immediately with no error dialog
and no state change, so the applied configuration is unchanged. -/
theorem C3_amended (st : CtrlState) (d : Draft) (ok : Bool) (h : st.isBusy = true) :
    save_and_apply_config st d ok = (st, CommitOutcome.busyNoop)
  ∧ showsError (save_and_apply_config st d ok).2 = false := by
  have he : save_and_apply_config st d ok = (st, CommitOutcome.busyNoop) := by
    unfold save_and_apply_config
    rw [if_pos h]
  refine ⟨he, ?_⟩
  rw [he]
  rfl

/-- Claim C3 amended, witnessed at a concrete busy state. -/
theorem C3_witness :
    save_and_apply_config busySt draft0 true = (busySt, CommitOutcome.busyNoop) :=
  (C3_amended busySt draft0 true rfl).1

theorem get_text_ne (text : List Char) (cfg : AppConfig) (h : pyStrip text ≠ []) :
    get_text_to_speak text cfg ≠ [] := by
  simp only [get_text_to_speak]
  rw [if_neg h]
  by_cases he : cfg.exclude_first_line = true
  · rw [if_pos he]
    by_cases hbody : pyStrip (joinWithNewline (pySplitlines (pyStrip text)).tail) = []
    · rw [if_pos hbody]
      exact h
    · rw [if_neg hbody]
      exact hbody
  · rw [if_neg he]
    exact h

theorem genLoop_empty_sched (total : Nat) (useEdge : Bool) :
    ∀ (chunks : List (List Char)) (idx : Nat) (st : CtrlState),
      st.stopSet = false → st.pauseOpen = true →
      ∃ evs, genLoop total useEdge idx [] chunks st = some (evs, st)
        ∧ (useEdge = false → countEdgeSynth evs = 0) := by
  intro chunks
  induction chunks with
  | nil =>
    intro idx st h1 h2
    exact ⟨[], rfl, fun _ => rfl⟩
  | cons c rest ih =>
    intro idx st h1 h2
    obtain ⟨evs, hrec, hcnt⟩ := ih (idx + 1) st h1 h2
    refine ⟨Ev.progress (idx * 95 / total)
        :: (if useEdge then Ev.synthEdge c else Ev.synthGtts c) :: evs, ?_, ?_⟩
    · simp only [genLoop, List.headD_nil, List.tail_nil, applyActs]
      rw [if_neg (by simp [h1]), if_neg (by simp [h2])]
      rw [hrec]
    · intro hue
      rw [hue]
      exact hcnt hue

theorem countEdgeSynth_reinit_if (b : Bool) :
    countEdgeSynth (if b = true then [Ev.reinit] else []) = 0 := by
  cases b
  · rfl
  · rfl

/-- Claim C7: when the configured render backend is edge but the
edge-tts client is unavailable, an undisturbed render job still
finishes with outcome completed, its completion dialog carries the
warning that gTTS was used as a fallback, and no chunk was synthesized
through the Edge backend. -/
theorem C7_fallback (cfg : AppConfig) (text : List Char) (ff : Bool)
    (hb : cfg.mp3_backend = edgeStr)
    (ht : pyStrip text ≠ []) :
    outcomeOf (generate_mp3_run (idleState cfg) text [] false ff false)
        = some JobOutcome.completed
  ∧ Warning.fallbackGtts ∈ warningsOf (generate_mp3_run (idleState cfg) text [] false ff false)
  ∧ countEdgeSynth (eventsOf (generate_mp3_run (idleState cfg) text [] false ff false)) = 0 := by
  have htts : get_text_to_speak text (idleState cfg).cfg ≠ [] := get_text_ne text _ ht
  have hbeq : (pyLower (orDefault (pyStrip (idleState cfg).cfg.mp3_backend) edgeStr)
      == edgeStr) = true := by
    show (pyLower (orDefault (pyStrip cfg.mp3_backend) edgeStr) == edgeStr) = true
    rw [hb]
    decide
  obtain ⟨evs, hloop, hcnt⟩ :=
    genLoop_empty_sched
      (max 1 (smart_split_text (get_text_to_speak text (idleState cfg).cfg)
          (idleState cfg).cfg.chunk_max_chars).length)
      (pyLower (orDefault (pyStrip (idleState cfg).cfg.mp3_backend) edgeStr) == edgeStr
          && false)
      (smart_split_text (get_text_to_speak text (idleState cfg).cfg)
          (idleState cfg).cfg.chunk_max_chars)
      1
      { isBusy := true, pauseOpen := true, stopSet := false,
        currentJob := JobKind.gen,
        restartAfterStop := (idleState cfg).restartAfterStop,
        cfg := (idleState cfg).cfg }
      rfl rfl
  refine ⟨?_, ?_, ?_⟩
  · simp only [generate_mp3_run]
    rw [if_neg (by exact Bool.false_ne_true), if_neg ht, if_neg htts]
    simp only [hloop]
    rw [if_neg (by exact Bool.false_ne_true)]
    rw [if_neg (by simp)]
    rfl
  · simp only [generate_mp3_run]
    rw [if_neg (by exact Bool.false_ne_true), if_neg ht, if_neg htts]
    simp only [hloop]
    rw [if_neg (by exact Bool.false_ne_true)]
    rw [if_neg (by simp)]
    show Warning.fallbackGtts ∈
      (if (pyLower (orDefault (pyStrip (idleState cfg).cfg.mp3_backend) edgeStr)
          == edgeStr && !false) = true then [Warning.fallbackGtts] else [])
        ++ (if (!ff) = true then [Warning.noFfmpeg] else [])
    rw [hbeq]
    exact List.mem_append_left _ (List.mem_cons_self _ _)
  · simp only [generate_mp3_run]
    rw [if_neg (by exact Bool.false_ne_true), if_neg ht, if_neg htts]
    simp only [hloop]
    rw [if_neg (by exact Bool.false_ne_true)]
    rw [if_neg (by simp)]
    show countEdgeSynth (Ev.progress 0 :: evs ++
        [Ev.progress 95, if ff = true then Ev.concatFfmpeg else Ev.concatNaive,
          Ev.progress 100, Ev.reinit] ++
        (if (end_job_cleanup
            { isBusy := false, pauseOpen := true, stopSet := false,
              currentJob := JobKind.gen,
              restartAfterStop := (idleState cfg).restartAfterStop,
              cfg := (idleState cfg).cfg }).2 = true
          then [Ev.reinit] else [])) = 0
    show countEdgeSynth ((evs ++ _) ++ _) = 0
    rw [countEdgeSynth_append, countEdgeSynth_append]
    rw [hcnt (Bool.and_false _)]
    have h2 : countEdgeSynth
        [Ev.progress 95, if ff = true then Ev.concatFfmpeg else Ev.concatNaive,
          Ev.progress 100, Ev.reinit] = 0 := by
      cases ff
      · rfl
      · rfl
    rw [h2, countEdgeSynth_reinit_if]

/-- Claim C7, witnessed: a concrete edge-configured run with the edge
client missing completes with the fallback warning and no edge
synthesis. -/
theorem C7_witness :
    outcomeOf (generate_mp3_run (idleState cfg0) exTextOi [] false true false)
        = some JobOutcome.completed
  ∧ Warning.fallbackGtts ∈ warningsOf
        (generate_mp3_run (idleState cfg0) exTextOi [] false true false)
  ∧ countEdgeSynth (eventsOf
        (generate_mp3_run (idleState cfg0) exTextOi [] false true false)) = 0 :=
  C7_fallback cfg0 exTextOi true rfl (by decide)
